import Mathlib

/-!
Verification of the embedded-payload editor core (block scanner, star mask,
deflate-framing decoder, declaration and wave parsers, splice/export).

Strings are modelled as `List Char`; JS string indices become list positions.
The external `pako` inflate routines are modelled as parameters
(`List Nat → Option (List Nat)`, `none` = the routine threw); everything else
is translated directly from the source.
-/

namespace AsSmithy

/-- The double-quote character (byte 34). -/
def dq : Char := Char.ofNat 34

/-- The single-quote character (byte 39). -/
def sq : Char := Char.ofNat 39

/-- ASCII whitespace, the model of the regex class `\s` on the inputs the
editors handle (space, tab, LF, VT, FF, CR). -/
def isWsChar (c : Char) : Bool :=
  c = ' ' || c = Char.ofNat 9 || c = Char.ofNat 10 || c = Char.ofNat 11 ||
  c = Char.ofNat 12 || c = Char.ofNat 13

/-- Characters of the base64 alphabet as used by the scanner's character
class: `A-Z`, `a-z`, `0-9`, `+`, `/`, `=`. -/
def isB64Char (c : Char) : Bool :=
  (65 ≤ c.toNat && c.toNat ≤ 90) || (97 ≤ c.toNat && c.toNat ≤ 122) ||
  (48 ≤ c.toNat && c.toNat ≤ 57) || c = '+' || c = '/' || c = '='

/-- The scanner's bracket class `[A-Za-z0-9+/=\s\*]`. -/
def isClassChar (c : Char) : Bool :=
  isB64Char c || isWsChar c || c = '*'

/-- A quote delimiter (`"` or `'`). -/
def isQuote (c : Char) : Bool := c = dq || c = sq

/-- Characters kept by `inner.replace(/[\s\*]/g, "")`: anything that is
neither whitespace nor the star mask character. -/
def maskKeep (c : Char) : Bool := !(isWsChar c || c = '*')

/-- `collectStarIndices` inner loop: walk the raw text, pushing for every
`*` the offset it would occupy in the mask-stripped string (`cleanPos`
counts only non-whitespace, non-star characters seen so far). -/
def collectStarIndicesAux : List Char → Nat → List Nat
  | [], _ => []
  | c :: rest, cleanPos =>
    if c = '*' then cleanPos :: collectStarIndicesAux rest cleanPos
    else if isWsChar c then collectStarIndicesAux rest cleanPos
    else collectStarIndicesAux rest (cleanPos + 1)

/-- `collectStarIndices` from WaveEditor.tsx / EnvironmentEditor.tsx. -/
def collectStarIndices (s : List Char) : List Nat :=
  collectStarIndicesAux s 0

/-- The `strip` half of the mask contract: the mask-stripped text together
with the recorded star offsets (as computed at scan time:
`inner.replace(/[\s\*]/g, "")` and `collectStarIndices inner`). -/
def stripStars (s : List Char) : List Char × List Nat :=
  (s.filter maskKeep, collectStarIndices s)

/-- `arr.splice(pos, 0, "*")`: insert a star at position `pos`. -/
def insertStarAt (l : List Char) (pos : Nat) : List Char :=
  l.take pos ++ '*' :: l.drop pos

/-- One insertion step of sorting a `Nat` list into descending order,
modelling `[...].sort((a, b) => b - a)`. -/
def insertDesc (n : Nat) : List Nat → List Nat
  | [] => [n]
  | m :: r => if m ≤ n then n :: m :: r else m :: insertDesc n r

/-- Sort into descending order (the result of `sort((a, b) => b - a)`;
any descending sort of a list of numbers is extensionally the same). -/
def sortDesc (l : List Nat) : List Nat := l.foldr insertDesc []

/-- `reinsertStars` from the source: keep positions `≤ length`, sort them
descending, and splice a star at each (end-first so that earlier insertions
are not shifted by later ones); identity when the position list is empty. -/
def reinsertStars (b64 : List Char) (starPositions : List Nat) : List Char :=
  if starPositions = [] then b64
  else (sortDesc (starPositions.filter (· ≤ b64.length))).foldl insertStarAt b64

/-- Reference interleaving function: lay down stars at ascending clean
offsets (`ps` relative to the front of `s`). Used only in proofs, as the
functional characterisation of `reinsertStars` on sorted position lists. -/
def weave : List Char → List Nat → List Char
  | s, [] => s
  | s, p :: ps => s.take p ++ '*' :: weave (s.drop p) (ps.map (· - p))
termination_by _ ps => ps.length
decreasing_by simp

example : collectStarIndices ('A' :: '*' :: 'B' :: '*' :: []) = [1, 2] := by decide
example : reinsertStars ('A' :: 'B' :: []) [1, 2] = ('A' :: '*' :: 'B' :: '*' :: []) := by decide
example : reinsertStars ('A' :: 'B' :: []) [1, 1] = ('A' :: '*' :: '*' :: 'B' :: []) := by decide
example : stripStars ('A' :: '*' :: '*' :: 'B' :: []) = ('A' :: 'B' :: [], [1, 1]) := by decide
example : reinsertStars ('A' :: 'B' :: []) [] = ('A' :: 'B' :: []) := by rfl
example : reinsertStars ('A' :: []) [5, 1, 0] = ('*' :: 'A' :: '*' :: []) := by decide

theorem maskKeep_eq_true (c : Char) :
    maskKeep c = true ↔ (¬ isWsChar c = true ∧ ¬ c = '*') := by
  simp [maskKeep]

theorem weave_nil (s : List Char) : weave s [] = s := by simp [weave]

theorem weave_cons (s : List Char) (q : Nat) (rest : List Nat) :
    weave s (q :: rest) = s.take q ++ '*' :: weave (s.drop q) (rest.map (· - q)) := by
  simp [weave]

theorem collectStarIndicesAux_add (l : List Char) (n m : Nat) :
    collectStarIndicesAux l (n + m) = (collectStarIndicesAux l n).map (· + m) := by
  induction l generalizing n with
  | nil => simp [collectStarIndicesAux]
  | cons c rest ih =>
    by_cases hs : c = '*'
    · simp [collectStarIndicesAux, hs, ih]
    · by_cases hw : isWsChar c
      · simp [collectStarIndicesAux, hs, hw, ih]
      · simp only [collectStarIndicesAux, if_neg hs, if_neg hw]
        rw [show n + m + 1 = (n + 1) + m by omega, ih]

theorem collectStarIndices_def (s : List Char) :
    collectStarIndices s = collectStarIndicesAux s 0 := rfl

theorem collectAux_star (rest : List Char) (n : Nat) :
    collectStarIndicesAux ('*' :: rest) n = n :: collectStarIndicesAux rest n := by
  simp [collectStarIndicesAux]

theorem collectAux_clean_cons (c : Char) (rest : List Char) (n : Nat)
    (h : maskKeep c = true) :
    collectStarIndicesAux (c :: rest) n = collectStarIndicesAux rest (n + 1) := by
  have hc := (maskKeep_eq_true c).mp h
  simp only [collectStarIndicesAux, if_neg hc.2, if_neg hc.1]

theorem filter_star_cons (l : List Char) :
    ('*' :: l).filter maskKeep = l.filter maskKeep := by
  simp [List.filter_cons, show maskKeep '*' = false from by decide]

theorem collectStarIndicesAux_append (a b : List Char) (n : Nat) :
    collectStarIndicesAux (a ++ b) n =
      collectStarIndicesAux a n ++
        collectStarIndicesAux b (n + (a.filter maskKeep).length) := by
  induction a generalizing n with
  | nil => simp [collectStarIndicesAux]
  | cons c rest ih =>
    by_cases hs : c = '*'
    · subst hs
      simp [collectAux_star, ih, filter_star_cons]
    · by_cases hw : isWsChar c
      · have hk : maskKeep c = false := by simp [maskKeep, hw]
        simp [collectStarIndicesAux, hs, hw, ih, List.filter_cons, hk]
      · have hk : maskKeep c = true := by simp [maskKeep, hs, hw]
        have harith : n + ((rest.filter maskKeep).length + 1)
            = (n + 1) + (rest.filter maskKeep).length := by omega
        simp [collectAux_clean_cons c rest n hk, collectAux_clean_cons,
          List.filter_cons, hk, harith, ih]

theorem collectStarIndicesAux_eq_map (l : List Char) (m : Nat) :
    collectStarIndicesAux l m = (collectStarIndicesAux l 0).map (· + m) := by
  simpa using collectStarIndicesAux_add l 0 m

theorem map_sub_add (ps : List Nat) (p : Nat) (h : ∀ x ∈ ps, p ≤ x) :
    (ps.map (· - p)).map (· + p) = ps := by
  induction ps with
  | nil => rfl
  | cons a l ih =>
    simp only [List.map_cons, List.cons.injEq]
    exact ⟨Nat.sub_add_cancel (h a (by simp)), ih (fun x hx => h x (by simp [hx]))⟩

theorem map_add_one_sub (qs : List Nat) (q : Nat) :
    (qs.map (· + 1)).map (· - (q + 1)) = qs.map (· - q) := by
  induction qs with
  | nil => rfl
  | cons a l ih => simp only [List.map_cons, ih, Nat.succ_sub_succ]

theorem map_sub_sub (rest : List Nat) (p q : Nat) (h : p ≤ q) :
    (rest.map (· - p)).map (· - (q - p)) = rest.map (· - q) := by
  induction rest with
  | nil => rfl
  | cons a l ih =>
    simp only [List.map_cons, ih, List.cons.injEq, and_true]
    omega

theorem collectStarIndicesAux_of_clean (l : List Char) (n : Nat)
    (h : ∀ c ∈ l, maskKeep c = true) : collectStarIndicesAux l n = [] := by
  induction l generalizing n with
  | nil => rfl
  | cons c rest ih =>
    have hc := (maskKeep_eq_true c).mp (h c (by simp))
    simp only [collectStarIndicesAux, if_neg hc.2, if_neg hc.1]
    exact ih _ (fun x hx => h x (by simp [hx]))

theorem no_star_of_collect_nil (l : List Char) (n : Nat)
    (h : collectStarIndicesAux l n = []) : ∀ c ∈ l, ¬ c = '*' := by
  induction l generalizing n with
  | nil => simp
  | cons c rest ih =>
    by_cases hs : c = '*'
    · simp [collectStarIndicesAux, hs] at h
    · intro x hx
      rcases List.mem_cons.mp hx with hx | hx
      · simpa [hx] using hs
      · by_cases hw : isWsChar c
        · simp only [collectStarIndicesAux, if_neg hs, if_pos hw] at h
          exact ih _ h x hx
        · simp only [collectStarIndicesAux, if_neg hs, if_neg hw] at h
          exact ih _ h x hx

theorem take_append_len (A B : List Char) (p : Nat) (h : A.length = p) :
    (A ++ B).take p = A := by
  subst h; exact List.take_left A B

theorem drop_append_len (A B : List Char) (p : Nat) (h : A.length = p) :
    (A ++ B).drop p = B := by
  subst h; exact List.drop_left A B

theorem weave_filter_collect : ∀ (n : Nat) (ps : List Nat), ps.length ≤ n →
    ∀ (S : List Char), (∀ c ∈ S, maskKeep c = true) → List.Chain' (· ≤ ·) ps →
    (∀ p ∈ ps, p ≤ S.length) →
    (weave S ps).filter maskKeep = S ∧ collectStarIndices (weave S ps) = ps := by
  intro n
  induction n with
  | zero =>
    intro ps hlen S hS _ _
    have hnil : ps = [] := List.eq_nil_of_length_eq_zero (Nat.le_zero.mp hlen)
    subst hnil
    rw [weave_nil]
    exact ⟨List.filter_eq_self.mpr hS, collectStarIndicesAux_of_clean S 0 hS⟩
  | succ n ihn =>
    intro ps hlen S hS hchain hb
    cases ps with
    | nil =>
      rw [weave_nil]
      exact ⟨List.filter_eq_self.mpr hS, collectStarIndicesAux_of_clean S 0 hS⟩
    | cons p ps =>
      have hp : p ≤ S.length := hb p (by simp)
      have hpair := List.chain'_iff_pairwise.mp hchain
      have hge : ∀ x ∈ ps, p ≤ x := fun x hx => (List.pairwise_cons.mp hpair).1 x hx
      have hS' : ∀ c ∈ S.drop p, maskKeep c = true :=
        fun c hc => hS c (List.mem_of_mem_drop hc)
      have hchain' : List.Chain' (· ≤ ·) (ps.map (· - p)) := by
        rw [List.chain'_map]
        exact hchain.tail.imp (fun a b h => Nat.sub_le_sub_right h p)
      have hb' : ∀ x ∈ ps.map (· - p), x ≤ (S.drop p).length := by
        intro x hx
        rcases List.mem_map.mp hx with ⟨y, hy, rfl⟩
        rw [List.length_drop]
        exact Nat.sub_le_sub_right (hb y (by simp [hy])) p
      have hlen' : (ps.map (· - p)).length ≤ n := by
        simp only [List.length_map]
        simp only [List.length_cons] at hlen
        omega
      obtain ⟨ihf, ihc⟩ := ihn (ps.map (· - p)) hlen' (S.drop p) hS' hchain' hb'
      have htake : ∀ c ∈ S.take p, maskKeep c = true :=
        fun c hc => hS c (List.mem_of_mem_take hc)
      have htakelen : (S.take p).length = p := by
        rw [List.length_take]; exact Nat.min_eq_left hp
      have hfiltake : (S.take p).filter maskKeep = S.take p :=
        List.filter_eq_self.mpr htake
      rw [weave_cons]
      constructor
      · rw [List.filter_append, hfiltake, filter_star_cons, ihf, List.take_append_drop]
      · rw [collectStarIndices_def, collectStarIndicesAux_append, hfiltake, htakelen,
          collectStarIndicesAux_of_clean _ 0 htake, List.nil_append, Nat.zero_add,
          collectAux_star, collectStarIndicesAux_eq_map _ p, ← collectStarIndices_def,
          ihc, map_sub_add ps p hge]

theorem map_sub_zero (l : List Nat) : l.map (· - 0) = l := by
  induction l with
  | nil => rfl
  | cons a t ih => simp [ih]

theorem weave_strip_id (s : List Char) (hnw : ∀ c ∈ s, isWsChar c = false) :
    weave (s.filter maskKeep) (collectStarIndices s) = s := by
  induction s with
  | nil => simp [collectStarIndices_def, collectStarIndicesAux, weave_nil]
  | cons c rest ih =>
    have hcw : isWsChar c = false := hnw c (by simp)
    have ih' := ih (fun x hx => hnw x (by simp [hx]))
    by_cases hs : c = '*'
    · subst hs
      rw [collectStarIndices_def, collectAux_star, ← collectStarIndices_def,
        filter_star_cons, weave_cons, map_sub_zero]
      simp only [List.take_zero, List.drop_zero, List.nil_append]
      rw [ih']
    · have hk : maskKeep c = true := (maskKeep_eq_true c).mpr ⟨by simp [hcw], hs⟩
      have hfil : (c :: rest).filter maskKeep = c :: rest.filter maskKeep := by
        simp [List.filter_cons, hk]
      have hcol : collectStarIndices (c :: rest)
          = (collectStarIndices rest).map (· + 1) := by
        rw [collectStarIndices_def, collectAux_clean_cons c rest 0 hk, Nat.zero_add,
          collectStarIndicesAux_eq_map, ← collectStarIndices_def]
      rw [hfil, hcol]
      cases hrest : collectStarIndices rest with
      | nil =>
        have hnostar := no_star_of_collect_nil rest 0 hrest
        have hfr : rest.filter maskKeep = rest := by
          apply List.filter_eq_self.mpr
          intro x hx
          exact (maskKeep_eq_true x).mpr ⟨by simp [hnw x (by simp [hx])], hnostar x hx⟩
        rw [List.map_nil, weave_nil, hfr]
      | cons q qs =>
        rw [List.map_cons, weave_cons, List.take_succ_cons, List.drop_succ_cons,
          map_add_one_sub qs q, List.cons_append, ← weave_cons]
        rw [← hrest]
        rw [ih']

theorem all_eq_cons_append (m : Nat) (r : List Nat) (h : ∀ x ∈ r, x = m) :
    m :: r = r ++ [m] := by
  induction r with
  | nil => rfl
  | cons x r ih =>
    have hx : x = m := h x (by simp)
    subst hx
    simp only [List.cons_append]
    rw [← ih (fun y hy => h y (by simp [hy]))]

theorem insertDesc_of_le (p : Nat) (l : List Nat)
    (hdesc : List.Pairwise (fun a b => b ≤ a) l) (h : ∀ m ∈ l, p ≤ m) :
    insertDesc p l = l ++ [p] := by
  induction l with
  | nil => rfl
  | cons m r ih =>
    by_cases hpm : m ≤ p
    · have hmp : m = p := Nat.le_antisymm hpm (h m (by simp))
      simp only [insertDesc, if_pos hpm]
      have hall : ∀ x ∈ m :: r, x = p := by
        intro x hx
        rcases List.mem_cons.mp hx with hx | hx
        · simp [hx, hmp]
        · exact Nat.le_antisymm (hmp ▸ (List.pairwise_cons.mp hdesc).1 x hx) (h x (by simp [hx]))
      exact all_eq_cons_append p (m :: r) hall
    · simp only [insertDesc, if_neg hpm]
      rw [ih (List.pairwise_cons.mp hdesc).2 (fun x hx => h x (by simp [hx])),
        List.cons_append]

theorem sortDesc_of_chain (l : List Nat) (h : List.Chain' (· ≤ ·) l) :
    sortDesc l = l.reverse := by
  induction l with
  | nil => rfl
  | cons p ps ih =>
    have hpair := List.chain'_iff_pairwise.mp h
    show insertDesc p (sortDesc ps) = (p :: ps).reverse
    rw [ih (List.chain'_iff_pairwise.mpr (List.pairwise_cons.mp hpair).2),
      List.reverse_cons]
    apply insertDesc_of_le
    · exact List.pairwise_reverse.mpr (List.pairwise_cons.mp hpair).2
    · intro m hm
      exact (List.pairwise_cons.mp hpair).1 m (List.mem_reverse.mp hm)

theorem weave_split (s : List Char) (p : Nat) (qs : List Nat)
    (hq : ∀ x ∈ qs, p ≤ x) :
    weave s qs = s.take p ++ weave (s.drop p) (qs.map (· - p)) := by
  cases qs with
  | nil => simp [weave_nil]
  | cons q rest =>
    have hpq : p ≤ q := hq q (by simp)
    have h1 : s.take p ++ (s.drop p).take (q - p) = s.take q := by
      rw [← List.take_add, Nat.add_sub_cancel' hpq]
    have h2 : (s.drop p).drop (q - p) = s.drop q := by
      rw [List.drop_drop, Nat.add_sub_cancel' hpq]
    have h3 : (rest.map (· - p)).map (· - (q - p)) = rest.map (· - q) :=
      map_sub_sub rest p q hpq
    rw [weave_cons, List.map_cons, weave_cons, h3, h2, ← List.append_assoc, h1]

theorem foldr_insertStar_eq_weave (ps : List Nat) (s : List Char)
    (hchain : List.Chain' (· ≤ ·) ps) (hb : ∀ p ∈ ps, p ≤ s.length) :
    ps.foldr (fun a acc => insertStarAt acc a) s = weave s ps := by
  revert hchain hb
  induction ps with
  | nil => intro _ _; simp [weave_nil]
  | cons p rest ih =>
    intro hchain hb
    have hpair := List.chain'_iff_pairwise.mp hchain
    have hge : ∀ x ∈ rest, p ≤ x := fun x hx => (List.pairwise_cons.mp hpair).1 x hx
    simp only [List.foldr_cons]
    rw [ih hchain.tail (fun x hx => hb x (by simp [hx]))]
    show insertStarAt (weave s rest) p = weave s (p :: rest)
    rw [weave_split s p rest hge]
    have hlen : (s.take p).length = p := by
      rw [List.length_take]; exact Nat.min_eq_left (hb p (by simp))
    simp only [insertStarAt]
    rw [take_append_len _ _ p hlen, drop_append_len _ _ p hlen, weave_cons]

theorem reinsertStars_eq_weave (s : List Char) (ps : List Nat)
    (hchain : List.Chain' (· ≤ ·) ps) (hb : ∀ p ∈ ps, p ≤ s.length) :
    reinsertStars s ps = weave s ps := by
  by_cases hemp : ps = []
  · subst hemp; simp [reinsertStars, weave_nil]
  · have hfilt : ps.filter (· ≤ s.length) = ps :=
      List.filter_eq_self.mpr (fun p hp => by simpa using hb p hp)
    simp only [reinsertStars, if_neg hemp]
    rw [hfilt, sortDesc_of_chain ps hchain, List.foldl_reverse]
    exact foldr_insertStar_eq_weave ps s hchain hb

theorem collect_sorted_bounded (l : List Char) : ∀ n : Nat,
    List.Chain' (· ≤ ·) (collectStarIndicesAux l n) ∧
    ∀ x ∈ collectStarIndicesAux l n, n ≤ x ∧ x ≤ n + (l.filter maskKeep).length := by
  induction l with
  | nil => intro n; simp [collectStarIndicesAux]
  | cons c rest ih =>
    intro n
    by_cases hs : c = '*'
    · have hk : maskKeep c = false := by simp [maskKeep, hs]
      obtain ⟨ihc, ihb⟩ := ih n
      constructor
      · simp only [collectStarIndicesAux, if_pos hs]
        exact List.chain'_cons'.mpr ⟨fun y hy => by
          have := (ihb y (by
            cases hcol : collectStarIndicesAux rest n with
            | nil => simp [hcol] at hy
            | cons a as => simp [hcol] at hy ⊢; simp [hy])).1
          exact this, ihc⟩
      · intro x hx
        simp only [collectStarIndicesAux, if_pos hs, List.mem_cons] at hx
        rcases hx with hx | hx
        · simp [hx, List.filter_cons, hk]
        · have := ihb x hx
          simp [List.filter_cons, hk]
          omega
    · by_cases hw : isWsChar c
      · have hk : maskKeep c = false := by simp [maskKeep, hw]
        obtain ⟨ihc, ihb⟩ := ih n
        constructor
        · simpa only [collectStarIndicesAux, if_neg hs, if_pos hw] using ihc
        · intro x hx
          simp only [collectStarIndicesAux, if_neg hs, if_pos hw] at hx
          have := ihb x hx
          simp [List.filter_cons, hk]
          omega
      · have hk : maskKeep c = true := by simp [maskKeep, hs, hw]
        obtain ⟨ihc, ihb⟩ := ih (n + 1)
        constructor
        · simpa only [collectStarIndicesAux, if_neg hs, if_neg hw] using ihc
        · intro x hx
          simp only [collectStarIndicesAux, if_neg hs, if_neg hw] at hx
          have := ihb x hx
          simp [List.filter_cons, hk]
          omega

theorem reinsert_strip_id (s : List Char) (hnw : ∀ c ∈ s, isWsChar c = false) :
    reinsertStars (s.filter maskKeep) (collectStarIndices s) = s := by
  obtain ⟨hc, hb⟩ := collect_sorted_bounded s 0
  rw [← collectStarIndices_def] at hc
  have hb2 : ∀ p ∈ collectStarIndices s, p ≤ (s.filter maskKeep).length := by
    intro p hp
    rw [collectStarIndices_def] at hp
    have := (hb p hp).2
    omega
  rw [reinsertStars_eq_weave _ _ hc hb2]
  exact weave_strip_id s hnw

/-- C6: the mask round-trip `strip (reinsert S P) = (S, P)` holds for every
string `S` made of non-whitespace, non-mask characters and every ascending
list `P` of offsets `≤ |S|`; `reinsert` is the identity when `P` is empty;
and offsets beyond the new string's length are silently dropped. (The claim
as frozen quantifies over *every* string `S`; it fails when `S` itself
contains mask or whitespace characters, see the counterexample.) -/
theorem mask_roundtrip_spec :
    (∀ (S : List Char) (P : List Nat),
        (∀ c ∈ S, maskKeep c = true) → List.Chain' (· ≤ ·) P →
        (∀ p ∈ P, p ≤ S.length) →
        stripStars (reinsertStars S P) = (S, P))
    ∧ (∀ S : List Char, reinsertStars S [] = S)
    ∧ (∀ (S : List Char) (P : List Nat),
        reinsertStars S P = reinsertStars S (P.filter (· ≤ S.length))) := by
  refine ⟨?_, ?_, ?_⟩
  · intro S P hS hchain hb
    rw [reinsertStars_eq_weave S P hchain hb]
    obtain ⟨hf, hc⟩ := weave_filter_collect P.length P (le_refl _) S hS hchain hb
    simp [stripStars, hf, hc]
  · intro S; rfl
  · intro S P
    by_cases hemp : P = []
    · subst hemp; rfl
    · by_cases hfe : P.filter (· ≤ S.length) = []
      · simp only [reinsertStars, if_neg hemp, if_pos hfe, hfe]
        rfl
      · simp only [reinsertStars, if_neg hemp, if_neg hfe]
        rw [List.filter_filter]
        congr 2
        apply List.filter_congr
        intro x _
        simp [Bool.and_self]

/-- C6 counterexample: for `S = "*"` (a string containing the mask
character) and `P = []`, stripping the reinserted string does not return
`(S, P)`: the star is treated as mask, so the claim as frozen — quantified
over every string — is false. -/
theorem mask_roundtrip_counterexample :
    stripStars (reinsertStars ('*' :: []) []) ≠ (('*' :: []), ([] : List Nat)) := by
  decide

/-- Witness for `mask_roundtrip_spec` at a concrete input. -/
theorem mask_roundtrip_spec_witness :
    stripStars (reinsertStars ('A' :: 'B' :: []) [0, 2]) = (('A' :: 'B' :: []), [0, 2]) :=
  mask_roundtrip_spec.1 _ _ (by decide)
    (List.chain'_cons.mpr ⟨by omega, List.chain'_singleton 2⟩) (by decide)

/-- `sub.isPrefixList super`: `sub` is a prefix of `super` (Bool). -/
def isPrefixList : List Char → List Char → Bool
  | [], _ => true
  | _ :: _, [] => false
  | a :: as, b :: bs => a = b && isPrefixList as bs

/-- JS `s.includes(pat)`: `pat` occurs contiguously in `s`. -/
def containsSub : List Char → List Char → Bool
  | [], pat => isPrefixList pat []
  | c :: rest, pat => isPrefixList pat (c :: rest) || containsSub rest pat

/-- `HINTS.some(h => t.includes(h))`. -/
def anyHint (hints : List (List Char)) (t : List Char) : Bool :=
  hints.any (fun h => containsSub t h)

/-- One scanned candidate payload block (`BlockMatch` in the source);
`likely` is `likelyWaves` / `likelyEnvironment` depending on the hint
vocabulary passed to the scanner. -/
structure Block where
  index : Nat
  quote : Char
  innerStart : Nat
  innerEnd : Nat
  original : List Char
  cleanedB64 : List Char
  starsAt : List Nat
  decodedText : Option (List Char)
  likely : Bool
deriving DecidableEq

/-- Build the `BlockMatch` record exactly as the scanner loop does:
`cleaned` removes whitespace and stars, decoding is attempted eagerly, and
the block is classified by the hint vocabulary. -/
def mkBlock (dec : List Char → Option (List Char)) (hints : List (List Char))
    (idx : Nat) (q : Char) (run : List Char) (innerStart : Nat) : Block :=
  let cleaned := run.filter maskKeep
  let decoded := dec cleaned
  { index := idx, quote := q, innerStart := innerStart,
    innerEnd := innerStart + run.length, original := run,
    cleanedB64 := cleaned, starsAt := collectStarIndices run,
    decodedText := decoded,
    likely := match decoded with
      | some t => anyHint hints t
      | none => false }

/-- The regex scan loop of `parseBlocks`
(`/(["'])(([A-Za-z0-9+\/=\s\*]{64,}))\1/gm` driven by `exec`): at a quote
character, the greedy class run is maximal (quotes are not in the class, so
backtracking can never succeed), the match requires run length `≥ 64` and a
matching closing quote, and scanning resumes after the closing quote; on
failure the scan advances one character. `dec` stands for
`decodeZlibBase64` (the pako-based decoder), `hints` for the keyword list. -/
def parseBlocksAux (dec : List Char → Option (List Char)) (hints : List (List Char)) :
    Nat → List Char → Nat → Nat → List Block
  | 0, _, _, _ => []
  | _ + 1, [], _, _ => []
  | fuel + 1, c :: rest, pos, idx =>
    if isQuote c then
      if 64 ≤ (rest.takeWhile isClassChar).length ∧
          (rest.drop (rest.takeWhile isClassChar).length).head? = some c then
        mkBlock dec hints idx c (rest.takeWhile isClassChar) (pos + 1) ::
          parseBlocksAux dec hints fuel (rest.drop ((rest.takeWhile isClassChar).length + 1))
            (pos + (rest.takeWhile isClassChar).length + 2) (idx + 1)
      else parseBlocksAux dec hints fuel rest (pos + 1) idx
    else parseBlocksAux dec hints fuel rest (pos + 1) idx

/-- Fuel is an artifact of the embedding: each scan step consumes at least
one character, so any fuel `≥` the text length computes the full scan and
the result does not depend on the particular fuel. -/
theorem parseBlocksAux_fuel (dec : List Char → Option (List Char))
    (hints : List (List Char)) : ∀ (f1 f2 : Nat) (s : List Char) (pos idx : Nat),
    s.length ≤ f1 → s.length ≤ f2 →
    parseBlocksAux dec hints f1 s pos idx = parseBlocksAux dec hints f2 s pos idx := by
  intro f1
  induction f1 with
  | zero =>
    intro f2 s pos idx h1 _
    have hnil : s = [] := List.eq_nil_of_length_eq_zero (Nat.le_zero.mp h1)
    subst hnil
    cases f2 <;> rfl
  | succ f1 ih =>
    intro f2 s pos idx h1 h2
    cases s with
    | nil => cases f2 <;> rfl
    | cons c rest =>
      cases f2 with
      | zero => simp at h2
      | succ f2 =>
        simp only [List.length_cons] at h1 h2
        simp only [parseBlocksAux]
        by_cases hq : isQuote c
        · by_cases hcond : 64 ≤ (rest.takeWhile isClassChar).length ∧
              (rest.drop (rest.takeWhile isClassChar).length).head? = some c
          · simp only [if_pos hq, if_pos hcond]
            congr 1
            apply ih
            · simp only [List.length_drop]; omega
            · simp only [List.length_drop]; omega
          · simp only [if_pos hq, if_neg hcond]
            apply ih <;> omega
        · simp only [if_neg hq]
          apply ih <;> omega

/-- The scan of a remaining text `s` whose scan position is `pos` and next
block ordinal is `idx` (the fueled loop run with canonical fuel). -/
def scanFrom (dec : List Char → Option (List Char)) (hints : List (List Char))
    (s : List Char) (pos idx : Nat) : List Block :=
  parseBlocksAux dec hints s.length s pos idx

/-- `parseBlocks` from the source (identical in both editors up to the
hint vocabulary and decoder). -/
def parseBlocks (dec : List Char → Option (List Char)) (hints : List (List Char))
    (content : List Char) : List Block :=
  parseBlocksAux dec hints content.length content 0 0

theorem parseBlocks_eq_scanFrom (dec : List Char → Option (List Char))
    (hints : List (List Char)) (content : List Char) :
    parseBlocks dec hints content = scanFrom dec hints content 0 0 := rfl

theorem scanFrom_nil (dec : List Char → Option (List Char))
    (hints : List (List Char)) (pos idx : Nat) :
    scanFrom dec hints [] pos idx = [] := rfl

theorem scanFrom_cons_nonquote (dec : List Char → Option (List Char))
    (hints : List (List Char)) (c : Char) (rest : List Char) (pos idx : Nat)
    (hq : isQuote c = false) :
    scanFrom dec hints (c :: rest) pos idx = scanFrom dec hints rest (pos + 1) idx := by
  show parseBlocksAux dec hints (rest.length + 1) (c :: rest) pos idx = _
  simp only [parseBlocksAux, hq, Bool.false_eq_true, if_false]
  rfl

theorem scanFrom_cons_fail (dec : List Char → Option (List Char))
    (hints : List (List Char)) (c : Char) (rest : List Char) (pos idx : Nat)
    (hq : isQuote c = true)
    (hcond : ¬(64 ≤ (rest.takeWhile isClassChar).length ∧
      (rest.drop (rest.takeWhile isClassChar).length).head? = some c)) :
    scanFrom dec hints (c :: rest) pos idx = scanFrom dec hints rest (pos + 1) idx := by
  show parseBlocksAux dec hints (rest.length + 1) (c :: rest) pos idx = _
  simp only [parseBlocksAux, hq, if_true, if_neg hcond]
  rfl

theorem scanFrom_cons_match (dec : List Char → Option (List Char))
    (hints : List (List Char)) (c : Char) (rest : List Char) (pos idx : Nat)
    (hq : isQuote c = true)
    (hcond : 64 ≤ (rest.takeWhile isClassChar).length ∧
      (rest.drop (rest.takeWhile isClassChar).length).head? = some c) :
    scanFrom dec hints (c :: rest) pos idx =
      mkBlock dec hints idx c (rest.takeWhile isClassChar) (pos + 1) ::
        scanFrom dec hints (rest.drop ((rest.takeWhile isClassChar).length + 1))
          (pos + (rest.takeWhile isClassChar).length + 2) (idx + 1) := by
  show parseBlocksAux dec hints (rest.length + 1) (c :: rest) pos idx = _
  simp only [parseBlocksAux, hq, if_true, if_pos hcond]
  congr 1
  apply parseBlocksAux_fuel
  · simp only [List.length_drop]; omega
  · exact le_refl _

/-- The splice step of `exportEdited`:
`fileContent.slice(0, blk.innerStart) + finalB64 + fileContent.slice(blk.innerEnd)`. -/
def splice (hostText : List Char) (b : Block) (newInner : List Char) : List Char :=
  hostText.take b.innerStart ++ newInner ++ hostText.drop b.innerEnd

/-- A decoder that always fails; used to instantiate the scanner in
concrete examples where decoding is irrelevant. -/
def decNone : List Char → Option (List Char) := fun _ => none

example : containsSub ('a' :: 'b' :: 'c' :: []) ('b' :: 'c' :: []) = true := by decide
example : containsSub ('a' :: 'b' :: []) ('b' :: 'c' :: []) = false := by decide
example :
    parseBlocks decNone [] (dq :: List.replicate 64 'A' ++ [dq])
      = [{ index := 0, quote := dq, innerStart := 1, innerEnd := 65,
           original := List.replicate 64 'A', cleanedB64 := List.replicate 64 'A',
           starsAt := [], decodedText := none, likely := false }] := by decide
example : parseBlocks decNone [] (dq :: List.replicate 63 'A' ++ [dq]) = [] := by decide

theorem drop_length_takeWhile (p : Char → Bool) (l : List Char) :
    l.drop (l.takeWhile p).length = l.dropWhile p := by
  induction l with
  | nil => rfl
  | cons c rest ih =>
    by_cases h : p c
    · simp [List.takeWhile_cons, List.dropWhile_cons, h, ih]
    · simp [List.takeWhile_cons, List.dropWhile_cons, h]

theorem scanFrom_skip (dec : List Char → Option (List Char))
    (hints : List (List Char)) (g : List Char) :
    ∀ (s : List Char) (pos idx : Nat), (∀ c ∈ g, isQuote c = false) →
    scanFrom dec hints (g ++ s) pos idx = scanFrom dec hints s (pos + g.length) idx := by
  induction g with
  | nil => intro s pos idx _; simp
  | cons c g ih =>
    intro s pos idx hg
    rw [List.cons_append,
      scanFrom_cons_nonquote dec hints c (g ++ s) pos idx (hg c (by simp)),
      ih s (pos + 1) idx (fun x hx => hg x (by simp [hx]))]
    have harith : pos + 1 + g.length = pos + (c :: g).length := by
      simp only [List.length_cons]; omega
    rw [harith]

theorem scanFrom_quote_free (dec : List Char → Option (List Char))
    (hints : List (List Char)) (g : List Char) (pos idx : Nat)
    (hg : ∀ c ∈ g, isQuote c = false) :
    scanFrom dec hints g pos idx = [] := by
  have := scanFrom_skip dec hints g [] pos idx hg
  rw [List.append_nil] at this
  rw [this, scanFrom_nil]

/-- Shape invariant of every scanned block: its `original` is the literal
inner slice of the scanned text, delimited on both sides by its matching
quote, and the whole record equals `mkBlock` applied to that slice at the
block's recorded start position. -/
def BlockShape (dec : List Char → Option (List Char)) (hints : List (List Char))
    (s : List Char) (pos : Nat) (b : Block) : Prop :=
  ∃ (pre post : List Char) (q : Char) (i : Nat), isQuote q = true ∧
    s = pre ++ q :: (b.original ++ q :: post) ∧
    (∀ c ∈ b.original, isClassChar c = true) ∧
    b = mkBlock dec hints i q b.original (pos + pre.length + 1)

theorem scanFrom_mem_shape (dec : List Char → Option (List Char))
    (hints : List (List Char)) : ∀ (n : Nat) (s : List Char), s.length ≤ n →
    ∀ (pos idx : Nat) (b : Block), b ∈ scanFrom dec hints s pos idx →
    BlockShape dec hints s pos b := by
  intro n
  induction n with
  | zero =>
    intro s hlen pos idx b hb
    have hnil : s = [] := List.eq_nil_of_length_eq_zero (Nat.le_zero.mp hlen)
    subst hnil
    simp [scanFrom_nil] at hb
  | succ n ih =>
    intro s hlen pos idx b hb
    cases s with
    | nil => simp [scanFrom_nil] at hb
    | cons c rest =>
      simp only [List.length_cons] at hlen
      by_cases hq : isQuote c
      · by_cases hcond : 64 ≤ (rest.takeWhile isClassChar).length ∧
            (rest.drop (rest.takeWhile isClassChar).length).head? = some c
        · rw [scanFrom_cons_match dec hints c rest pos idx hq hcond] at hb
          obtain ⟨t, ht⟩ : ∃ t,
              rest.drop (rest.takeWhile isClassChar).length = c :: t := by
            cases hd : rest.drop (rest.takeWhile isClassChar).length with
            | nil => rw [hd] at hcond; simp at hcond
            | cons x t =>
              rw [hd] at hcond
              have hx : x = c := by
                have := hcond.2
                simp only [List.head?_cons, Option.some.injEq] at this
                exact this
              exact ⟨t, by rw [hx]⟩
          have hdrop1 : rest.drop ((rest.takeWhile isClassChar).length + 1) = t := by
            have h' : rest.drop ((rest.takeWhile isClassChar).length + 1)
                = List.drop 1 (rest.drop (rest.takeWhile isClassChar).length) := by
              rw [List.drop_drop]
            rw [h', ht]
            rfl
          have hsplit : rest = rest.takeWhile isClassChar ++ c :: t := by
            conv_lhs => rw [← List.takeWhile_append_dropWhile (p := isClassChar) (l := rest)]
            rw [← drop_length_takeWhile isClassChar rest, ht]
          rcases List.mem_cons.mp hb with hb | hb
          · refine ⟨[], t, c, idx, hq, ?_, ?_, ?_⟩
            · rw [hb]
              simp only [mkBlock, List.nil_append]
              conv_lhs => rw [hsplit]
            · intro x hx
              rw [hb] at hx
              simp only [mkBlock] at hx
              exact List.mem_takeWhile_imp hx
            · rw [hb]
              simp [mkBlock]
          · have hlen' : (rest.drop ((rest.takeWhile isClassChar).length + 1)).length ≤ n := by
              simp only [List.length_drop]; omega
            obtain ⟨pre, post, q, i, hq', hseq, hclass, hbeq⟩ := ih _ hlen' _ _ _ hb
            refine ⟨c :: (rest.takeWhile isClassChar ++ c :: pre), post, q, i, hq', ?_, hclass, ?_⟩
            · rw [hdrop1] at hseq
              conv_lhs => rw [hsplit, hseq]
              simp [List.append_assoc]
            · rw [hbeq]
              congr 1
              simp only [List.length_cons, List.length_append]
              omega
        · rw [scanFrom_cons_fail dec hints c rest pos idx hq hcond] at hb
          obtain ⟨pre, post, q, i, hq', hseq, hclass, hbeq⟩ :=
            ih rest (by omega) (pos + 1) idx b hb
          refine ⟨c :: pre, post, q, i, hq', by rw [List.cons_append, hseq], hclass, ?_⟩
          rw [hbeq]
          congr 1
          simp only [List.length_cons]
          omega
      · rw [scanFrom_cons_nonquote dec hints c rest pos idx (by simpa using hq)] at hb
        obtain ⟨pre, post, q, i, hq', hseq, hclass, hbeq⟩ :=
          ih rest (by omega) (pos + 1) idx b hb
        refine ⟨c :: pre, post, q, i, hq', by rw [List.cons_append, hseq], hclass, ?_⟩
        rw [hbeq]
        congr 1
        simp only [List.length_cons]
        omega

/-- C1 (amended): for every scanned block whose raw inner content contains
no whitespace, splicing the block's own mask-stripped encoded string with
the recorded mask positions reapplied back at `[spanStart, spanEnd)`
reproduces the host text exactly. (As frozen — for *every* scanned block —
the claim is false: whitespace inside the quoted run is dropped by the
re-export, see the counterexample.) -/
theorem splice_roundtrip (dec : List Char → Option (List Char))
    (hints : List (List Char)) (T : List Char) (b : Block)
    (hb : b ∈ parseBlocks dec hints T)
    (hnw : ∀ c ∈ b.original, isWsChar c = false) :
    splice T b (reinsertStars b.cleanedB64 b.starsAt) = T := by
  rw [parseBlocks_eq_scanFrom] at hb
  obtain ⟨pre, post, q, i, hq, hseq, hclass, hbeq⟩ :=
    scanFrom_mem_shape dec hints T.length T (le_refl _) 0 0 b hb
  have hT1 : T = (pre ++ [q]) ++ (b.original ++ q :: post) := by rw [hseq]; simp
  have hT2 : T = ((pre ++ [q]) ++ b.original) ++ (q :: post) := by rw [hseq]; simp
  have hlen1 : (pre ++ [q]).length = 0 + pre.length + 1 := by simp
  have hlen2 : ((pre ++ [q]) ++ b.original).length
      = 0 + pre.length + 1 + b.original.length := by simp; omega
  have hre : reinsertStars b.cleanedB64 b.starsAt = b.original := by
    have h1 : b.cleanedB64 = b.original.filter maskKeep := by
      rw [hbeq]; simp [mkBlock]
    have h2 : b.starsAt = collectStarIndices b.original := by
      rw [hbeq]; simp [mkBlock]
    rw [h1, h2]
    exact reinsert_strip_id b.original hnw
  have hstart : b.innerStart = 0 + pre.length + 1 := by
    rw [hbeq]; simp [mkBlock]
  have hend : b.innerEnd = 0 + pre.length + 1 + b.original.length := by
    rw [hbeq]; simp [mkBlock]
  have htake : T.take (0 + pre.length + 1) = pre ++ [q] := by
    rw [hT1, take_append_len _ _ _ hlen1]
  have hdrop : T.drop (0 + pre.length + 1 + b.original.length) = q :: post := by
    rw [hT2, drop_append_len _ _ _ hlen2]
  simp only [splice, hre, hstart, hend, htake, hdrop]
  conv_rhs => rw [hT2]

/-- Host text whose single payload block contains a whitespace character
inside the quoted run. -/
def c1HostWs : List Char := dq :: (List.replicate 64 'A' ++ (' ' :: [dq]))

/-- The block the scanner finds in `c1HostWs`. -/
def c1BlockWs : Block :=
  { index := 0, quote := dq, innerStart := 1, innerEnd := 66,
    original := List.replicate 64 'A' ++ [' '],
    cleanedB64 := List.replicate 64 'A', starsAt := [],
    decodedText := none, likely := false }

/-- C1 counterexample: the claim as frozen is false. For a host whose
block's raw inner content contains whitespace, splicing back the block's
mask-stripped encoded string with the mask reapplied does *not* reproduce
the host text (the whitespace byte is lost). -/
theorem splice_roundtrip_counterexample :
    c1BlockWs ∈ parseBlocks decNone [] c1HostWs ∧
    splice c1HostWs c1BlockWs
      (reinsertStars c1BlockWs.cleanedB64 c1BlockWs.starsAt) ≠ c1HostWs := by
  decide

/-- Host text with one whitespace-free payload block carrying a mask star. -/
def c1Host : List Char := dq :: (('*' :: List.replicate 64 'A') ++ [dq])

/-- The block the scanner finds in `c1Host`. -/
def c1Block : Block :=
  { index := 0, quote := dq, innerStart := 1, innerEnd := 66,
    original := '*' :: List.replicate 64 'A',
    cleanedB64 := List.replicate 64 'A', starsAt := [0],
    decodedText := none, likely := false }

/-- Witness for `splice_roundtrip` at a concrete input. -/
theorem splice_roundtrip_witness :
    splice c1Host c1Block (reinsertStars c1Block.cleanedB64 c1Block.starsAt) = c1Host :=
  splice_roundtrip decNone [] c1Host c1Block (by decide) (by decide)

theorem takeWhile_append_all (p : Char → Bool) (a b : List Char)
    (h : ∀ c ∈ a, p c = true) : (a ++ b).takeWhile p = a ++ b.takeWhile p := by
  induction a with
  | nil => simp
  | cons c a ih =>
    have hc := h c (by simp)
    simp [List.takeWhile_cons, hc, ih (fun x hx => h x (by simp [hx]))]

theorem takeWhile_append_not_all (p : Char → Bool) (a b : List Char)
    (h : ¬ ∀ c ∈ a, p c = true) : (a ++ b).takeWhile p = a.takeWhile p := by
  induction a with
  | nil => exact absurd (by simp) h
  | cons c a ih =>
    by_cases hc : p c = true
    · have h' : ¬ ∀ x ∈ a, p x = true := by
        intro hh
        exact h (fun x hx => by
          rcases List.mem_cons.mp hx with rfl | hx
          · exact hc
          · exact hh x hx)
      simp [List.cons_append, List.takeWhile_cons, hc, ih h']
    · simp [List.takeWhile_cons, hc]

theorem quote_not_class (c : Char) (h : isQuote c = true) : isClassChar c = false := by
  have hc : c = dq ∨ c = sq := by simpa [isQuote] using h
  rcases hc with rfl | rfl <;> decide

theorem b64_class (c : Char) (h : isB64Char c = true) : isClassChar c = true := by
  simp [isClassChar, h]

/-- One quoted literal of a structured host: a quote character and the raw
inner text. -/
structure Lit where
  q : Char
  inner : List Char
deriving DecidableEq

/-- Assemble a host text from a leading gap and literal/gap pairs:
`g0 ++ q·inner·q ++ g1 ++ q·inner·q ++ g2 ++ ...`. -/
def assemble : List Char → List (Lit × List Char) → List Char
  | g0, [] => g0
  | g0, (l, g) :: rest => g0 ++ l.q :: (l.inner ++ l.q :: assemble g rest)

/-- The scanner's actual match criterion for a literal: its inner content
is at least 64 characters, all drawn from the bracket class (base64
alphabet, whitespace, or the mask character). -/
def litMatches (l : Lit) : Bool :=
  l.inner.all isClassChar && 64 ≤ l.inner.length

/-- The block list the scanner must produce on an assembled host. -/
def expectedBlocks (dec : List Char → Option (List Char)) (hints : List (List Char)) :
    Nat → Nat → List (Lit × List Char) → List Block
  | _, _, [] => []
  | pos, idx, (l, g) :: rest =>
    if litMatches l then
      mkBlock dec hints idx l.q l.inner (pos + 1) ::
        expectedBlocks dec hints (pos + l.inner.length + 2 + g.length) (idx + 1) rest
    else expectedBlocks dec hints (pos + l.inner.length + 2 + g.length) idx rest

/-- Well-formedness of one literal/gap pair of a structured host: the
delimiter is a quote; neither inner text nor gap contains a quote; the
gap's class-character prefix is shorter than the 64 floor; and the literal
is either a payload (≥ 64 base64-alphabet characters) or a short decoy
(fewer than 64 characters). -/
def GoodPair (p : Lit × List Char) : Prop :=
  isQuote p.1.q = true ∧ (∀ c ∈ p.1.inner, isQuote c = false) ∧
  (∀ c ∈ p.2, isQuote c = false) ∧ (p.2.takeWhile isClassChar).length < 64 ∧
  ((∀ c ∈ p.1.inner, isB64Char c = true) ∧ 64 ≤ p.1.inner.length ∨
    p.1.inner.length < 64)

instance (p : Lit × List Char) : Decidable (GoodPair p) := by
  unfold GoodPair
  infer_instance

theorem length_takeWhile_le' (p : Char → Bool) (l : List Char) :
    (l.takeWhile p).length ≤ l.length := by
  induction l with
  | nil => simp
  | cons c t ih =>
    by_cases h : p c
    · simp only [List.takeWhile_cons, h, if_true, List.length_cons]
      omega
    · simp [List.takeWhile_cons, h]

theorem goodPair_elim (l : Lit) (g : List Char) (h : GoodPair (l, g)) :
    isQuote l.q = true ∧ (∀ c ∈ l.inner, isQuote c = false) ∧
    (∀ c ∈ g, isQuote c = false) ∧ (g.takeWhile isClassChar).length < 64 ∧
    ((∀ c ∈ l.inner, isB64Char c = true) ∧ 64 ≤ l.inner.length ∨
      l.inner.length < 64) := h

theorem assemble_class_short (g : List Char) (rest : List (Lit × List Char))
    (hq : ∀ p ∈ rest, isQuote p.1.q = true)
    (h : (g.takeWhile isClassChar).length < 64) :
    ((assemble g rest).takeWhile isClassChar).length < 64 := by
  cases rest with
  | nil => exact h
  | cons p r =>
    obtain ⟨l, g2⟩ := p
    by_cases hall : ∀ c ∈ g, isClassChar c = true
    · have hg : g.takeWhile isClassChar = g := by
        simpa using takeWhile_append_all isClassChar g [] hall
      rw [show assemble g ((l, g2) :: r)
          = g ++ (l.q :: (l.inner ++ l.q :: assemble g2 r)) from rfl,
        takeWhile_append_all _ _ _ hall]
      have hlq : isClassChar l.q = false := quote_not_class l.q (hq (l, g2) (by simp))
      rw [hg] at h
      simp [List.takeWhile_cons, hlq, h]
    · rw [show assemble g ((l, g2) :: r)
          = g ++ (l.q :: (l.inner ++ l.q :: assemble g2 r)) from rfl,
        takeWhile_append_not_all _ _ _ hall]
      exact h

theorem scanFrom_assemble (dec : List Char → Option (List Char))
    (hints : List (List Char)) : ∀ (pairs : List (Lit × List Char))
    (g0 : List Char) (pos idx : Nat),
    (∀ c ∈ g0, isQuote c = false) → (∀ p ∈ pairs, GoodPair p) →
    scanFrom dec hints (assemble g0 pairs) pos idx
      = expectedBlocks dec hints (pos + g0.length) idx pairs := by
  intro pairs
  induction pairs with
  | nil =>
    intro g0 pos idx hg0 _
    exact scanFrom_quote_free dec hints g0 pos idx hg0
  | cons p rest ih =>
    obtain ⟨l, g⟩ := p
    intro g0 pos idx hg0 hgood
    obtain ⟨hql, hqi, hqg, hcp, hlit⟩ := goodPair_elim l g (hgood (l, g) (by simp))
    have hgood' : ∀ p ∈ rest, GoodPair p := fun p hp => hgood p (by simp [hp])
    rw [show assemble g0 ((l, g) :: rest)
        = g0 ++ (l.q :: (l.inner ++ l.q :: assemble g rest)) from rfl,
      scanFrom_skip dec hints g0 _ pos idx hg0]
    rcases hlit with ⟨hb64, hge⟩ | hlt
    · -- payload literal: the scanner matches it
      have hall : ∀ c ∈ l.inner, isClassChar c = true :=
        fun c hc => b64_class c (hb64 c hc)
      have hrun : (l.inner ++ l.q :: assemble g rest).takeWhile isClassChar
          = l.inner := by
        rw [takeWhile_append_all _ _ _ hall]
        simp [List.takeWhile_cons, quote_not_class l.q hql]
      have hdropI : (l.inner ++ l.q :: assemble g rest).drop l.inner.length
          = l.q :: assemble g rest :=
        drop_append_len _ _ _ rfl
      have hcond : 64 ≤ ((l.inner ++ l.q :: assemble g rest).takeWhile isClassChar).length ∧
          ((l.inner ++ l.q :: assemble g rest).drop
            ((l.inner ++ l.q :: assemble g rest).takeWhile isClassChar).length).head?
            = some l.q := by
        rw [hrun, hdropI]
        exact ⟨hge, rfl⟩
      rw [scanFrom_cons_match dec hints l.q _ _ idx hql hcond, hrun]
      have hdropI1 : (l.inner ++ l.q :: assemble g rest).drop (l.inner.length + 1)
          = assemble g rest := by
        rw [show l.inner ++ l.q :: assemble g rest
            = (l.inner ++ [l.q]) ++ assemble g rest from by simp]
        exact drop_append_len _ _ _ (by simp)
      rw [hdropI1, ih g _ _ hqg hgood']
      have hlm : litMatches l = true := by
        simp only [litMatches, Bool.and_eq_true, List.all_eq_true, decide_eq_true_eq]
        exact ⟨hall, hge⟩
      simp only [expectedBlocks, if_pos hlm]
    · -- decoy literal: both quote positions fail to match
      have hrunlt : ((l.inner ++ l.q :: assemble g rest).takeWhile isClassChar).length
          < 64 := by
        by_cases hall : ∀ c ∈ l.inner, isClassChar c = true
        · rw [takeWhile_append_all _ _ _ hall]
          simpa [List.takeWhile_cons, quote_not_class l.q hql] using hlt
        · rw [takeWhile_append_not_all _ _ _ hall]
          have := length_takeWhile_le' isClassChar l.inner
          omega
      rw [scanFrom_cons_fail dec hints l.q _ _ idx hql (fun h => absurd h.1 (by omega)),
        scanFrom_skip dec hints l.inner _ _ idx hqi]
      have hrun2 : ((assemble g rest).takeWhile isClassChar).length < 64 :=
        assemble_class_short g rest (fun p hp => (hgood' p hp).1) hcp
      rw [scanFrom_cons_fail dec hints l.q _ _ idx hql (fun h => absurd h.1 (by omega)),
        ih g _ _ hqg hgood']
      have hlmf : litMatches l = false := by
        have hd : decide (64 ≤ l.inner.length) = false := by
          simp only [decide_eq_false_iff_not]
          omega
        simp [litMatches, hd]
      simp only [expectedBlocks, hlmf, Bool.false_eq_true, if_false]
      have harith : pos + g0.length + 1 + l.inner.length + 1 + g.length
          = pos + g0.length + l.inner.length + 2 + g.length := by omega
      rw [harith]

theorem expectedBlocks_length (dec : List Char → Option (List Char))
    (hints : List (List Char)) : ∀ (pairs : List (Lit × List Char)) (pos idx : Nat),
    (expectedBlocks dec hints pos idx pairs).length
      = (pairs.filter (fun p => litMatches p.1)).length := by
  intro pairs
  induction pairs with
  | nil => intro pos idx; rfl
  | cons p rest ih =>
    intro pos idx
    obtain ⟨l, g⟩ := p
    by_cases hm : litMatches l = true
    · simp [expectedBlocks, hm, List.filter_cons, ih]
    · simp [expectedBlocks, hm, List.filter_cons, ih]

theorem expectedBlocks_start_ge (dec : List Char → Option (List Char))
    (hints : List (List Char)) : ∀ (pairs : List (Lit × List Char)) (pos idx : Nat)
    (b : Block), b ∈ expectedBlocks dec hints pos idx pairs → pos + 1 ≤ b.innerStart := by
  intro pairs
  induction pairs with
  | nil => intro pos idx b hb; simp [expectedBlocks] at hb
  | cons p rest ih =>
    intro pos idx b hb
    obtain ⟨l, g⟩ := p
    by_cases hm : litMatches l = true
    · simp only [expectedBlocks, if_pos hm, List.mem_cons] at hb
      rcases hb with rfl | hb
      · simp [mkBlock]
      · have := ih _ _ _ hb
        omega
    · simp only [expectedBlocks, if_neg hm] at hb
      have := ih _ _ _ hb
      omega

theorem expectedBlocks_chain (dec : List Char → Option (List Char))
    (hints : List (List Char)) : ∀ (pairs : List (Lit × List Char)) (pos idx : Nat),
    List.Chain' (fun a b => a.innerStart < b.innerStart)
      (expectedBlocks dec hints pos idx pairs) := by
  intro pairs
  induction pairs with
  | nil => intro pos idx; simp [expectedBlocks]
  | cons p rest ih =>
    intro pos idx
    obtain ⟨l, g⟩ := p
    by_cases hm : litMatches l = true
    · simp only [expectedBlocks, if_pos hm]
      refine List.chain'_cons'.mpr ⟨?_, ih _ _⟩
      intro y hy
      have hmem : y ∈ expectedBlocks dec hints
          (pos + l.inner.length + 2 + g.length) (idx + 1) rest :=
        List.mem_of_mem_head? hy
      have h1 := expectedBlocks_start_ge dec hints rest _ _ y hmem
      have h2 : (mkBlock dec hints idx l.q l.inner (pos + 1)).innerStart = pos + 1 := by
        simp [mkBlock]
      rw [h2]
      omega
    · simp only [expectedBlocks, if_neg hm]
      exact ih _ _

/-- C2 (amended): the scanner matches a quoted literal iff its inner
content consists of at least 64 characters of the combined class — base64
alphabet, whitespace, or mask — between matching quotes (the 64 floor
counts whitespace and mask characters, not only base64 characters). On a
host assembled from quote-free gaps whose class prefixes are shorter than
64 and literals that are each either a payload (≥ 64 base64 characters) or
a short decoy (< 64 characters), the scan returns exactly the payload
blocks, one per matching literal (`expectedBlocks`), with ordinals in text
order and strictly increasing `spanStart`. -/
theorem scanner_exactness (dec : List Char → Option (List Char))
    (hints : List (List Char)) (g0 : List Char) (pairs : List (Lit × List Char))
    (hg0 : ∀ c ∈ g0, isQuote c = false) (hgood : ∀ p ∈ pairs, GoodPair p) :
    parseBlocks dec hints (assemble g0 pairs)
        = expectedBlocks dec hints g0.length 0 pairs
      ∧ (parseBlocks dec hints (assemble g0 pairs)).length
        = (pairs.filter (fun p => litMatches p.1)).length
      ∧ List.Chain' (fun a b => a.innerStart < b.innerStart)
          (parseBlocks dec hints (assemble g0 pairs)) := by
  have h := scanFrom_assemble dec hints pairs g0 0 0 hg0 hgood
  rw [Nat.zero_add] at h
  rw [parseBlocks_eq_scanFrom]
  refine ⟨h, ?_, ?_⟩
  · rw [h, expectedBlocks_length]
  · rw [h]
    exact expectedBlocks_chain dec hints pairs g0.length 0

/-- Host with a quoted run of 63 base64 characters plus one whitespace
character: only 63 base64-alphabet characters once whitespace is ignored. -/
def c2Host : List Char := dq :: (List.replicate 63 'A' ++ (' ' :: [dq]))

/-- C2 counterexample: the claim as frozen is false. The scanner's
64-character floor counts whitespace (and mask) characters: a literal with
only 63 base64-alphabet characters after ignoring whitespace is still
matched as a payload block, because its raw inner content has 64 characters
of the bracket class. -/
theorem scanner_floor_counterexample :
    parseBlocks decNone [] c2Host
        = [{ index := 0, quote := dq, innerStart := 1, innerEnd := 65,
             original := List.replicate 63 'A' ++ [' '],
             cleanedB64 := List.replicate 63 'A', starsAt := [],
             decodedText := none, likely := false }]
      ∧ (((List.replicate 63 'A' ++ [' ']).filter
            (fun c => !isWsChar c)).filter isB64Char).length = 63 := by
  decide

/-- Leading gap of the witness host (contains `=`, a class character, but
no quotes). -/
def c2G0 : List Char := 'x' :: ' ' :: '=' :: ' ' :: []

/-- Witness literal/gap pairs: a short decoy, then a 64-character payload. -/
def c2Pairs : List (Lit × List Char) :=
  [(⟨dq, 'B' :: 'C' :: []⟩, ';' :: ' ' :: []),
   (⟨dq, List.replicate 64 'A'⟩, ';' :: [])]

/-- Witness for `scanner_exactness` at a concrete input: one decoy and one
payload produce exactly one block. -/
theorem scanner_exactness_witness :
    parseBlocks decNone [] (assemble c2G0 c2Pairs)
        = expectedBlocks decNone [] c2G0.length 0 c2Pairs
      ∧ (parseBlocks decNone [] (assemble c2G0 c2Pairs)).length
        = (c2Pairs.filter (fun p => litMatches p.1)).length
      ∧ List.Chain' (fun a b => a.innerStart < b.innerStart)
          (parseBlocks decNone [] (assemble c2G0 c2Pairs)) :=
  scanner_exactness decNone [] c2G0 c2Pairs (by decide) (by decide)

/-- 6-bit value of a base64 alphabet character (`=` is not in the decode
alphabet once padding is stripped). -/
def base64Val (c : Char) : Option Nat :=
  if 65 ≤ c.toNat ∧ c.toNat ≤ 90 then some (c.toNat - 65)
  else if 97 ≤ c.toNat ∧ c.toNat ≤ 122 then some (c.toNat - 97 + 26)
  else if 48 ≤ c.toNat ∧ c.toNat ≤ 57 then some (c.toNat - 48 + 52)
  else if c = '+' then some 62
  else if c = '/' then some 63
  else none

/-- Remove one or two trailing `=` characters (forgiving-base64 step). -/
def dropTrailingEq (s : List Char) : List Char :=
  match s.reverse with
  | '=' :: '=' :: r => r.reverse
  | '=' :: r => r.reverse
  | _ => s

/-- Padding is only stripped when the length is a multiple of 4
(forgiving-base64, as implemented by `atob`). -/
def dropB64Pad (s : List Char) : List Char :=
  if s.length % 4 = 0 then dropTrailingEq s else s

/-- Reassemble 6-bit values into bytes: full quads give three bytes, a
trailing pair gives one byte, a trailing triple gives two. -/
def b64Assemble : List Nat → List Nat
  | a :: b :: c :: d :: rest =>
    (a * 4 + b / 16) :: ((b % 16) * 16 + c / 4) :: ((c % 4) * 64 + d) ::
      b64Assemble rest
  | a :: b :: [] => [a * 4 + b / 16]
  | a :: b :: c :: [] => [a * 4 + b / 16, (b % 16) * 16 + c / 4]
  | _ => []

/-- `base64ToBytes` from the source: strip whitespace
(`b64.replace(/\s+/g, "")`) then `atob` (forgiving-base64): strip trailing
padding when the length is a multiple of 4, fail when the remaining length
is ≡ 1 mod 4 or any character is outside the alphabet, else decode;
`none` models the thrown `InvalidCharacterError`. -/
def base64ToBytes (b64 : List Char) : Option (List Nat) :=
  let cleaned := b64.filter (fun c => !isWsChar c)
  let data := dropB64Pad cleaned
  if data.length % 4 = 1 then none
  else if data.all (fun c => (base64Val c).isSome) then
    some (b64Assemble (data.map (fun c => (base64Val c).getD 0)))
  else none

/-- The U+FFFD replacement character. -/
def repChar : Char := Char.ofNat 0xFFFD

/-- A UTF-8 continuation byte. -/
def isCont (b : Nat) : Bool := 128 ≤ b && b ≤ 191

/-- Lower bound of the first continuation byte (WHATWG UTF-8 decoder). -/
def contLow (b : Nat) : Nat :=
  if b = 0xE0 then 160 else if b = 0xF0 then 144 else 128

/-- Upper bound of the first continuation byte (WHATWG UTF-8 decoder). -/
def contHigh (b : Nat) : Nat :=
  if b = 0xED then 159 else if b = 0xF4 then 143 else 191

/-- WHATWG UTF-8 decoding with U+FFFD substitution — the behaviour of
`new TextDecoder().decode(bytes)` in its default non-fatal mode, which
never throws: malformed sequences become replacement characters and a byte
that fails as a continuation is reprocessed as a new lead byte. (The fuel
argument is an embedding artifact: every step consumes at least one byte,
so fuel = byte count runs the decoder to completion.) -/
def utf8LossyAux : Nat → List Nat → List Char
  | 0, _ => []
  | _ + 1, [] => []
  | fuel + 1, b :: rest =>
    if b ≤ 0x7F then Char.ofNat b :: utf8LossyAux fuel rest
    else if b < 0xC2 || 0xF4 < b then repChar :: utf8LossyAux fuel rest
    else if b ≤ 0xDF then
      match rest with
      | [] => [repChar]
      | c1 :: r1 =>
        if isCont c1 then
          Char.ofNat ((b - 0xC0) * 64 + (c1 - 0x80)) :: utf8LossyAux fuel r1
        else repChar :: utf8LossyAux fuel rest
    else if b ≤ 0xEF then
      match rest with
      | [] => [repChar]
      | c1 :: r1 =>
        if contLow b ≤ c1 && c1 ≤ contHigh b then
          match r1 with
          | [] => [repChar]
          | c2 :: r2 =>
            if isCont c2 then
              Char.ofNat ((b - 0xE0) * 4096 + (c1 - 0x80) * 64 + (c2 - 0x80)) ::
                utf8LossyAux fuel r2
            else repChar :: utf8LossyAux fuel r1
        else repChar :: utf8LossyAux fuel rest
    else
      match rest with
      | [] => [repChar]
      | c1 :: r1 =>
        if contLow b ≤ c1 && c1 ≤ contHigh b then
          match r1 with
          | [] => [repChar]
          | c2 :: r2 =>
            if isCont c2 then
              match r2 with
              | [] => [repChar]
              | c3 :: r3 =>
                if isCont c3 then
                  Char.ofNat ((b - 0xF0) * 262144 + (c1 - 0x80) * 4096 +
                      (c2 - 0x80) * 64 + (c3 - 0x80)) :: utf8LossyAux fuel r3
                else repChar :: utf8LossyAux fuel r2
            else repChar :: utf8LossyAux fuel r1
        else repChar :: utf8LossyAux fuel rest

/-- `TextDecoder.decode` (lossy, total). -/
def utf8LossyDecode (bytes : List Nat) : List Char :=
  utf8LossyAux bytes.length bytes

/-- Strict UTF-8 decoding: `none` on any malformed sequence. This is the
spec's notion of "text decodable as UTF-8". -/
def utf8Decode? : List Nat → Option (List Char)
  | [] => some []
  | b :: rest =>
    if b ≤ 0x7F then (utf8Decode? rest).map (fun t => Char.ofNat b :: t)
    else if b < 0xC2 || 0xF4 < b then none
    else if b ≤ 0xDF then
      match rest with
      | [] => none
      | c1 :: r1 =>
        if isCont c1 then
          (utf8Decode? r1).map (fun t => Char.ofNat ((b - 0xC0) * 64 + (c1 - 0x80)) :: t)
        else none
    else if b ≤ 0xEF then
      match rest with
      | [] => none
      | c1 :: r1 =>
        if contLow b ≤ c1 && c1 ≤ contHigh b then
          match r1 with
          | [] => none
          | c2 :: r2 =>
            if isCont c2 then
              (utf8Decode? r2).map (fun t =>
                Char.ofNat ((b - 0xE0) * 4096 + (c1 - 0x80) * 64 + (c2 - 0x80)) :: t)
            else none
        else none
    else
      match rest with
      | [] => none
      | c1 :: r1 =>
        if contLow b ≤ c1 && c1 ≤ contHigh b then
          match r1 with
          | [] => none
          | c2 :: r2 =>
            if isCont c2 then
              match r2 with
              | [] => none
              | c3 :: r3 =>
                if isCont c3 then
                  (utf8Decode? r3).map (fun t =>
                    Char.ofNat ((b - 0xF0) * 262144 + (c1 - 0x80) * 4096 +
                      (c2 - 0x80) * 64 + (c3 - 0x80)) :: t)
                else none
            else none
        else none

example : base64ToBytes ("TWFu".toList) = some [77, 97, 110] := by decide
example : base64ToBytes ("TWE=".toList) = some [77, 97] := by decide
example : base64ToBytes ("A".toList) = none := by decide
example : base64ToBytes ("A&BC".toList) = none := by decide
example : utf8LossyDecode [72, 105] = ('H' :: 'i' :: []) := by decide
example : utf8LossyDecode [255] = [repChar] := by decide
example : utf8Decode? [255] = none := by decide
example : utf8Decode? [72, 105] = some ('H' :: 'i' :: []) := by decide
example : utf8LossyDecode [0xE2, 0x82, 0xAC] = [Char.ofNat 0x20AC] := by decide
example : utf8Decode? [0xED, 0xA0, 0x80] = none := by decide

/-- Result of `decodeZlibBase64`: `{ ok: true; text }` or
`{ ok: false; error }`. -/
inductive DecodeResult where
  | ok (text : List Char)
  | err (msg : List Char)
deriving DecidableEq

/-- The loop over the three framing thunks: the first one that does not
throw wins, and its output is text-decoded (which never throws). -/
def firstInflate (textDec : List Nat → List Char) :
    List (Option (List Nat)) → Option (List Char)
  | [] => none
  | some out :: _ => some (textDec out)
  | none :: rest => firstInflate textDec rest

/-- The error text of the all-framings-failed branch. -/
def unableMsg : List Char := "Unable to inflate with zlib/raw/gzip.".toList

/-- Stand-in for the message of the error thrown by `atob` on malformed
base64 (the source reports `e.message`). -/
def badB64Msg : List Char := "InvalidCharacterError".toList

/-- `decodeZlibBase64` from the source, with the three pako routines as
parameters (`inflate` = zlib-wrapped, `inflateRaw` = headerless deflate,
`ungzip` = gzip-wrapped; `none` models a throw): base64-decode, then try
the three framings in that order, text-decoding the first success with the
(lossy, never-throwing) `TextDecoder`. -/
def decodeZlibBase64 (inflate inflateRaw ungzip : List Nat → Option (List Nat))
    (input : List Char) : DecodeResult :=
  match base64ToBytes input with
  | none => .err badB64Msg
  | some bytes =>
    match firstInflate utf8LossyDecode [inflate bytes, inflateRaw bytes, ungzip bytes] with
    | some text => .ok text
    | none => .err unableMsg

/-- C4: `decodeZlibBase64` attempts exactly three deflate framings in the
fixed priority order zlib-wrapped, then raw (headerless) deflate, then
gzip-wrapped; it returns the (text-decoded) result of the first framing
that succeeds, and when all three fail it returns an error value — a fixed
message, never partial output. -/
theorem decode_framings_order (inflate inflateRaw ungzip : List Nat → Option (List Nat))
    (input : List Char) (bytes : List Nat)
    (hb : base64ToBytes input = some bytes) :
    (∀ out, inflate bytes = some out →
        decodeZlibBase64 inflate inflateRaw ungzip input = .ok (utf8LossyDecode out))
    ∧ (∀ out, inflate bytes = none → inflateRaw bytes = some out →
        decodeZlibBase64 inflate inflateRaw ungzip input = .ok (utf8LossyDecode out))
    ∧ (∀ out, inflate bytes = none → inflateRaw bytes = none → ungzip bytes = some out →
        decodeZlibBase64 inflate inflateRaw ungzip input = .ok (utf8LossyDecode out))
    ∧ (inflate bytes = none → inflateRaw bytes = none → ungzip bytes = none →
        decodeZlibBase64 inflate inflateRaw ungzip input = .err unableMsg) := by
  refine ⟨?_, ?_, ?_, ?_⟩ <;> intros <;> simp [decodeZlibBase64, hb, firstInflate, *]

/-- Witness for `decode_framings_order`: with the zlib framing failing and
the raw framing succeeding, the raw framing's output is returned. -/
theorem decode_framings_order_witness :
    decodeZlibBase64 (fun _ => none) (fun _ => some [104, 105]) (fun _ => none)
      ("AAAA".toList) = .ok (utf8LossyDecode [104, 105]) :=
  (decode_framings_order (fun _ => none) (fun _ => some [104, 105]) (fun _ => none)
    ("AAAA".toList) [0, 0, 0] (by decide)).2.1 [104, 105] rfl rfl

/-- C3 counterexample: the claim as frozen is false. A framing whose
decompressed bytes are not valid UTF-8 is still accepted: the default
`TextDecoder` never throws, it substitutes U+FFFD, so the block's decoded
value is the silently-substituted text rather than a `DecodeError`. -/
theorem utf8_error_counterexample :
    decodeZlibBase64 (fun _ => some [255]) (fun _ => none) (fun _ => none)
        ("AAAA".toList) = DecodeResult.ok [repChar]
      ∧ utf8Decode? [255] = none := by
  decide

/-- C3 (amended): when the decompressed bytes are not valid UTF-8, decoding
does not fail: the first framing that decompresses without error is
returned, its bytes decoded lossily with U+FFFD substitution, regardless
of UTF-8 validity. -/
theorem decode_lossy_spec (inflate inflateRaw ungzip : List Nat → Option (List Nat))
    (input : List Char) (bytes out : List Nat)
    (hb : base64ToBytes input = some bytes)
    (hout : inflate bytes = some out ∨
      (inflate bytes = none ∧ inflateRaw bytes = some out) ∨
      (inflate bytes = none ∧ inflateRaw bytes = none ∧ ungzip bytes = some out))
    (_hinvalid : utf8Decode? out = none) :
    decodeZlibBase64 inflate inflateRaw ungzip input = .ok (utf8LossyDecode out) := by
  rcases hout with h | ⟨h1, h2⟩ | ⟨h1, h2, h3⟩ <;>
    simp [decodeZlibBase64, hb, firstInflate, *]

/-- Witness for `decode_lossy_spec`: decompressed bytes `[255, 65]` are not
valid UTF-8, yet the decoder reports success with the substituted text. -/
theorem decode_lossy_spec_witness :
    decodeZlibBase64 (fun _ => some [255, 65]) (fun _ => none) (fun _ => none)
      ("AAAA".toList) = .ok (utf8LossyDecode [255, 65]) :=
  decode_lossy_spec (fun _ => some [255, 65]) (fun _ => none) (fun _ => none)
    ("AAAA".toList) [0, 0, 0] [255, 65] (by decide) (Or.inl rfl) (by decide)

/-- JS `String.prototype.trim` (ASCII whitespace on the inputs handled). -/
def trim (s : List Char) : List Char :=
  ((s.dropWhile isWsChar).reverse.dropWhile isWsChar).reverse

/-- Split on `/\r?\n/`: `\n` or `\r\n` separate lines; a lone `\r` stays
(a `\r` directly followed by `\n` is dropped, the `\n` closes the line). -/
def splitLinesAux : List Char → List Char → List (List Char)
  | [], acc => [acc.reverse]
  | c :: rest, acc =>
    if c = Char.ofNat 10 then acc.reverse :: splitLinesAux rest []
    else if c = Char.ofNat 13 ∧ rest.head? = some (Char.ofNat 10) then
      splitLinesAux rest acc
    else splitLinesAux rest (c :: acc)

/-- `text.split(/\r?\n/)`. -/
def splitLines (s : List Char) : List (List Char) := splitLinesAux s []

/-- The regex class `\w`. -/
def isWordChar (c : Char) : Bool :=
  (65 ≤ c.toNat && c.toNat ≤ 90) || (97 ≤ c.toNat && c.toNat ≤ 122) ||
  (48 ≤ c.toNat && c.toNat ≤ 57) || c = '_'

/-- ASCII digit. -/
def isDigitChar (c : Char) : Bool := 48 ≤ c.toNat && c.toNat ≤ 57

/-- ASCII lowercase, for case-insensitive regex tests. -/
def lowerChar (c : Char) : Char :=
  if 65 ≤ c.toNat ∧ c.toNat ≤ 90 then Char.ofNat (c.toNat + 32) else c

/-- `/pat/i.test(s)` for a lowercase ASCII pattern: case-insensitive
substring test. -/
def icontains (s pat : List Char) : Bool := containsSub (s.map lowerChar) pat

example : splitLines ("ab".toList ++ Char.ofNat 10 :: "cd".toList)
    = ["ab".toList, "cd".toList] := by decide
example : splitLines (Char.ofNat 13 :: Char.ofNat 10 :: "x".toList)
    = [[], "x".toList] := by decide
example : trim (' ' :: 'a' :: ' ' :: []) = ('a' :: []) := by decide
example : icontains ("MySpeedVar".toList) ("speed".toList) = true := by decide

/-- Matches the common tail `(\w+)\s*[:=]\s*(.+);?` of all three
declaration grammars at the current position: a greedy word run (the
name), optional whitespace, `:` or `=`, then the value — the rest of the
line after the greedy `\s*`; when that leaves nothing for `(.+)`, the
`\s*` backtracks one character, so the value is the final whitespace
character (the trailing `;?` always matches empty after a greedy `.+`).
Backtracking cannot help anywhere else because `\w`, `\s` and `[:=]` are
pairwise disjoint. -/
def matchNameValue (s : List Char) : Option (List Char × List Char) :=
  let name := s.takeWhile isWordChar
  if name = [] then none
  else
    match (s.drop name.length).dropWhile isWsChar with
    | [] => none
    | c :: s5 =>
      if c = ':' ∨ c = '=' then
        let rest := s5.dropWhile isWsChar
        if rest.isEmpty then
          match s5.getLast? with
          | some d => some (name, [d])
          | none => none
        else some (name, rest)
      else none

/-- Pattern 1, `(?:var|const|let)\s+(\w+)\s*[:=]\s*(.+);?`, at the current
position (the alternatives start with distinct letters, so at most one
applies at a given position). -/
def matchKeywordAt (s : List Char) : Option (List Char × List Char) :=
  match (if isPrefixList ("var".toList) s then some 3
         else if isPrefixList ("const".toList) s then some 5
         else if isPrefixList ("let".toList) s then some 3
         else none : Option Nat) with
  | none => none
  | some n =>
    if ((s.drop n).takeWhile isWsChar).isEmpty then none
    else matchNameValue ((s.drop n).dropWhile isWsChar)

/-- Pattern 2, `this\.(\w+)\s*[:=]\s*(.+);?`, at the current position. -/
def matchThisAt (s : List Char) : Option (List Char × List Char) :=
  if isPrefixList ("this.".toList) s then matchNameValue (s.drop 5) else none

/-- Unanchored regex search: try the position matcher at every position,
left to right (the end-of-string position included, where all three
patterns fail for lack of a name). -/
def searchAux (m : List Char → Option (List Char × List Char)) :
    List Char → Option (List Char × List Char)
  | [] => m []
  | c :: rest =>
    match m (c :: rest) with
    | some r => some r
    | none => searchAux m rest

/-- `trimmedLine.match(pattern)` over the three patterns in priority
order, first match wins. -/
def parseEnvLine (t : List Char) : Option (List Char × List Char) :=
  match searchAux matchKeywordAt t with
  | some r => some r
  | none =>
    match searchAux matchThisAt t with
    | some r => some r
    | none => searchAux matchNameValue t

/-- The `type` field of an `EnvironmentVariable`. -/
inductive EnvType where
  | string
  | number
  | boolean
  | array
  | object
deriving DecidableEq

/-- `EnvironmentVariable` from EnvironmentEditor.tsx (`vtype` is the
source's `type` field). -/
structure EnvVar where
  name : List Char
  value : List Char
  vtype : EnvType
  category : List Char
  rawLine : List Char
deriving DecidableEq

/-- `value.replace(/[;,]/g, '').trim()` — removes *every* semicolon and
comma of the captured value, not only trailing ones. -/
def cleanValueOf (v : List Char) : List Char :=
  trim (v.filter (fun c => !(c = ';' || c = ',')))

/-- `/^-?\d+(\.\d+)?$/.test s`. -/
def isNumericLit (s : List Char) : Bool :=
  let s1 := match s with
    | '-' :: r => r
    | _ => s
  let d := s1.takeWhile isDigitChar
  if d.isEmpty then false
  else
    match s1.drop d.length with
    | [] => true
    | '.' :: r2 => !r2.isEmpty && r2.all isDigitChar
    | _ => false

/-- Head character test (`startsWith` for a single character). -/
def headIs (c : Char) : List Char → Bool
  | x :: _ => x = c
  | [] => false

/-- Last character test (`endsWith` for a single character). -/
def lastIs (c : Char) (l : List Char) : Bool :=
  match l.getLast? with
  | some x => x = c
  | none => false

/-- Literal-shape type inference, checked in source order: boolean,
number, array, object, else string. -/
def inferType (cv : List Char) : EnvType :=
  if cv.map lowerChar = "true".toList ∨ cv.map lowerChar = "false".toList then .boolean
  else if isNumericLit cv then .number
  else if headIs '[' cv ∧ lastIs ']' cv then .array
  else if headIs (Char.ofNat 123) cv ∧ lastIs (Char.ofNat 125) cv then .object
  else .string

/-- Name-based category inference, first matching rule wins. -/
def inferCategory (name : List Char) : List Char :=
  if ["speed", "velocity", "rate", "time", "delay"].any
      (fun p => icontains name p.toList) then "Performance".toList
  else if ["color", "rgb", "hex", "alpha"].any
      (fun p => icontains name p.toList) then "Visual".toList
  else if ["sound", "audio", "volume", "music"].any
      (fun p => icontains name p.toList) then "Audio".toList
  else if ["width", "height", "size", "scale", "position", "x", "y", "z"].any
      (fun p => icontains name p.toList) then "Layout".toList
  else if ["health", "damage", "score", "points", "lives"].any
      (fun p => icontains name p.toList) then "Game".toList
  else if ["debug", "test", "dev", "log"].any
      (fun p => icontains name p.toList) then "Debug".toList
  else "General".toList

/-- `parseEnvironmentVariables` from EnvironmentEditor.tsx: line by line;
blank lines and `//` / `/*` comment lines are skipped; the three grammars
are tried in order; the captured value is stripped of all `;`/`,` and
trimmed; type and category are inferred; `rawLine` keeps the trimmed
line. -/
def parseEnvironmentVariables (decodedText : List Char) : List EnvVar :=
  (splitLines decodedText).filterMap (fun line =>
    let t := trim line
    if t.isEmpty || isPrefixList ("//".toList) t || isPrefixList ("/*".toList) t then
      none
    else
      match parseEnvLine t with
      | some (name, value) =>
        let cv := cleanValueOf value
        some { name := name, value := cv, vtype := inferType cv,
               category := inferCategory name, rawLine := t }
      | none => none)

/-- `handleSaveVar` from EnvironmentEditor.tsx: replace every record whose
name equals the edited record's (current) name. -/
def handleSaveVar (vars : List EnvVar) (editing : EnvVar) : List EnvVar :=
  vars.map (fun v => if v.name = editing.name then editing else v)

example : parseEnvironmentVariables ("var x = 42;".toList)
    = [{ name := 'x' :: [], value := '4' :: '2' :: [], vtype := .number,
         category := "Layout".toList, rawLine := "var x = 42;".toList }] := by decide
example : parseEnvironmentVariables ("// comment".toList) = [] := by decide

/-- C5: the declaration parser does not strip only trailing `;`/`,` — the
source's `value.replace(/[;,]/g, '')` removes every semicolon and comma,
so the interior commas of `[1,2]` are lost: the stored value is `[12]`,
not `[1,2]` (while the value is still classified as an array). -/
theorem value_comma_stripped :
    parseEnvironmentVariables ("var a = [1,2];".toList)
      = [{ name := 'a' :: [], value := '[' :: '1' :: '2' :: ']' :: [],
           vtype := .array, category := "General".toList,
           rawLine := "var a = [1,2];".toList }] := by
  decide

/-- C10: saving an edited record replaces exactly the records whose name
equals the edited record's current name; every position keeps its record
when the name does not match, and if no record bears the edited name the
record set is returned unchanged (the edit is silently lost). -/
theorem handleSaveVar_spec (vars : List EnvVar) (editing : EnvVar) :
    ((∀ v ∈ vars, v.name ≠ editing.name) → handleSaveVar vars editing = vars)
    ∧ (handleSaveVar vars editing).length = vars.length
    ∧ (∀ i : Nat, (handleSaveVar vars editing)[i]?
        = (vars[i]?).map (fun v => if v.name = editing.name then editing else v)) := by
  refine ⟨?_, by simp [handleSaveVar], ?_⟩
  · intro h
    show vars.map _ = vars
    induction vars with
    | nil => rfl
    | cons v rest ih =>
      simp only [List.map_cons, if_neg (h v (by simp))]
      rw [ih (fun x hx => h x (by simp [hx]))]
  · intro i
    simp [handleSaveVar, List.getElem?_map]

/-- A sample record. -/
def envVarA : EnvVar :=
  { name := 'a' :: [], value := '1' :: [], vtype := .number,
    category := "General".toList, rawLine := "a = 1;".toList }

/-- A record whose (edited) name matches nothing in the sample set. -/
def envVarB : EnvVar :=
  { envVarA with name := 'b' :: [] }

/-- Witness for `handleSaveVar_spec`: an edit whose current name matches
no record leaves the record set unchanged. -/
theorem handleSaveVar_spec_witness : handleSaveVar [envVarA] envVarB = [envVarA] :=
  (handleSaveVar_spec [envVarA] envVarB).1 (by decide)

/-- JS `endsWith`. -/
def endsWithList (suffix l : List Char) : Bool :=
  isPrefixList suffix.reverse l.reverse

/-- The wave editor's export file name:
`fileName.endsWith(".as") ? fileName.replace(/\.as$/i, "_edited.as")
 : fileName-or-"waves" + "_edited.as"` (under the branch guard, the
anchored replace removes exactly the final three characters). -/
def exportNameWave (fileName : List Char) : List Char :=
  if endsWithList (".as".toList) fileName then
    fileName.take (fileName.length - 3) ++ ("_edited.as".toList)
  else
    (if fileName = [] then "waves".toList else fileName) ++ ("_edited.as".toList)

/-- The environment editor's export file name (suffix `_env_edited.as`,
fallback base name `environment`). -/
def exportNameEnv (fileName : List Char) : List Char :=
  if endsWithList (".as".toList) fileName then
    fileName.take (fileName.length - 3) ++ ("_env_edited.as".toList)
  else
    (if fileName = [] then "environment".toList else fileName) ++ ("_edited.as".toList)

example : exportNameWave ("level.as".toList) = ("level_edited.as".toList) := by decide
example : exportNameEnv ("level.as".toList) = ("level_env_edited.as".toList) := by decide
example : exportNameWave [] = ("waves_edited.as".toList) := by decide

theorem exportNameWave_length (s : List Char) :
    (exportNameWave s).length ≠ s.length := by
  have h10 : ("_edited.as".toList).length = 10 := by decide
  by_cases he : endsWithList (".as".toList) s = true
  · simp only [exportNameWave, if_pos he, List.length_append, List.length_take, h10]
    omega
  · simp only [exportNameWave, if_neg he, List.length_append, h10]
    by_cases hs : s = []
    · subst hs; decide
    · simp only [if_neg hs]
      omega

theorem exportNameEnv_length (s : List Char) :
    (exportNameEnv s).length ≠ s.length := by
  have h14 : ("_env_edited.as".toList).length = 14 := by decide
  have h10 : ("_edited.as".toList).length = 10 := by decide
  by_cases he : endsWithList (".as".toList) s = true
  · simp only [exportNameEnv, if_pos he, List.length_append, List.length_take, h14]
    omega
  · simp only [exportNameEnv, if_neg he, List.length_append, h10]
    by_cases hs : s = []
    · subst hs; decide
    · simp only [if_neg hs]
      omega

/-- C8 (amended): for every input file name both editors' export names
differ from the input; the fixed suffix is inserted before the `.as`
extension when the name ends in `.as`, and otherwise `_edited.as` is
appended to the input name, with a generic base name used only when the
input name is empty. (As frozen — "a suffix-qualified generic name is used
otherwise" — the claim is false: for a non-empty name without the `.as`
extension the output is derived from the input name, not a generic name;
see the counterexample.) -/
theorem export_name_differs (s : List Char) :
    exportNameWave s ≠ s ∧ exportNameEnv s ≠ s
    ∧ (endsWithList (".as".toList) s = false →
        exportNameWave s = (if s = [] then "waves".toList else s) ++ ("_edited.as".toList)
        ∧ exportNameEnv s
          = (if s = [] then "environment".toList else s) ++ ("_edited.as".toList)) := by
  refine ⟨?_, ?_, ?_⟩
  · intro h
    exact exportNameWave_length s (by rw [h])
  · intro h
    exact exportNameEnv_length s (by rw [h])
  · intro he
    constructor
    · simp only [exportNameWave, he, Bool.false_eq_true, if_false]
    · simp only [exportNameEnv, he, Bool.false_eq_true, if_false]

/-- C8 counterexample: the fallback for a name without the `.as` extension
is not a generic name — it depends on the input name. -/
theorem export_name_not_generic :
    endsWithList (".as".toList) ("readme.txt".toList) = false
    ∧ endsWithList (".as".toList) ('a' :: []) = false
    ∧ exportNameWave ("readme.txt".toList) ≠ exportNameWave ('a' :: [])
    ∧ exportNameWave ("readme.txt".toList) = ("readme.txt_edited.as".toList) := by
  decide

/-- Witness for `export_name_differs` at concrete inputs. -/
theorem export_name_differs_witness :
    exportNameWave ("level.as".toList) ≠ ("level.as".toList)
    ∧ exportNameWave ("notes.txt".toList)
        = ("notes.txt".toList) ++ ("_edited.as".toList) :=
  ⟨(export_name_differs ("level.as".toList)).1,
   (((export_name_differs ("notes.txt".toList)).2.2) (by decide)).1⟩

/-- The auto-open selection of `onOpenFile`:
`found.find(b => b.likelyWaves && b.decodedText)
  ?? found.find(b => !!b.decodedText)`. -/
def selectBlock (found : List Block) : Option Block :=
  match found.find? (fun b => b.likely && b.decodedText.isSome) with
  | some b => some b
  | none => found.find? (fun b => b.decodedText.isSome)

theorem find?_eq_some_split {p : Block → Bool} : ∀ (l : List Block) (b : Block),
    l.find? p = some b →
    p b = true ∧ ∃ l1 l2, l = l1 ++ b :: l2 ∧ ∀ x ∈ l1, p x = false := by
  intro l
  induction l with
  | nil => intro b h; simp at h
  | cons a rest ih =>
    intro b h
    by_cases ha : p a = true
    · rw [List.find?_cons_of_pos _ ha] at h
      obtain rfl : a = b := by simpa using h
      exact ⟨ha, [], rest, rfl, by simp⟩
    · rw [List.find?_cons_of_neg _ (by simpa using ha)] at h
      obtain ⟨hp, l1, l2, heq, hall⟩ := ih b h
      refine ⟨hp, a :: l1, l2, by rw [heq]; rfl, ?_⟩
      intro x hx
      rcases List.mem_cons.mp hx with rfl | hx
      · simpa using ha
      · exact hall x hx

/-- C7: auto-open block selection. For every block sequence: a selected
block is a member and decodable; when the first matcher finds nothing and
no block is decodable at all, no block is selected (and selection is a
total function — no exception); the selected block is the first block in
sequence order that is classified-and-decodable, or — when no block is —
the first decodable block. For scanned blocks, the classification flag is
true iff decoding succeeded and the decoded text contains a hint
keyword. -/
theorem selectBlock_spec :
    (∀ (bs : List Block) (b : Block), selectBlock bs = some b →
        b ∈ bs ∧ b.decodedText.isSome = true)
    ∧ (∀ bs : List Block, (∀ b ∈ bs, b.decodedText = none) → selectBlock bs = none)
    ∧ (∀ (bs : List Block) (b : Block), selectBlock bs = some b →
        ((b.likely && b.decodedText.isSome) = true ∧
          ∃ l1 l2, bs = l1 ++ b :: l2 ∧
            ∀ x ∈ l1, (x.likely && x.decodedText.isSome) = false)
        ∨ ((∀ x ∈ bs, (x.likely && x.decodedText.isSome) = false) ∧
            b.decodedText.isSome = true ∧
            ∃ l1 l2, bs = l1 ++ b :: l2 ∧ ∀ x ∈ l1, x.decodedText.isSome = false))
    ∧ (∀ (dec : List Char → Option (List Char)) (hints : List (List Char))
        (T : List Char) (b : Block), b ∈ parseBlocks dec hints T →
        (b.likely = true ↔ ∃ t, b.decodedText = some t ∧ anyHint hints t = true)) := by
  refine ⟨?_, ?_, ?_, ?_⟩
  · intro bs b h
    cases h1 : bs.find? (fun b => b.likely && b.decodedText.isSome) with
    | some b' =>
      simp only [selectBlock, h1] at h
      have hb : b' = b := by simpa using h
      rw [hb] at h1
      refine ⟨List.mem_of_find?_eq_some h1, ?_⟩
      have hp := List.find?_some h1
      simp only [Bool.and_eq_true] at hp
      exact hp.2
    | none =>
      simp only [selectBlock, h1] at h
      refine ⟨List.mem_of_find?_eq_some h, ?_⟩
      exact List.find?_some (p := fun x : Block => x.decodedText.isSome) h
  · intro bs hall
    have h1 : bs.find? (fun b => b.likely && b.decodedText.isSome) = none :=
      List.find?_eq_none.mpr (fun x hx => by simp [hall x hx])
    have h2 : bs.find? (fun b => b.decodedText.isSome) = none :=
      List.find?_eq_none.mpr (fun x hx => by simp [hall x hx])
    simp [selectBlock, h1, h2]
  · intro bs b h
    cases h1 : bs.find? (fun b => b.likely && b.decodedText.isSome) with
    | some b' =>
      simp only [selectBlock, h1] at h
      have hb : b' = b := by simpa using h
      rw [hb] at h1
      exact Or.inl (find?_eq_some_split bs b h1)
    | none =>
      simp only [selectBlock, h1] at h
      obtain ⟨hp, l1, l2, heq, hall⟩ := find?_eq_some_split bs b h
      refine Or.inr ⟨?_, hp, l1, l2, heq, hall⟩
      intro x hx
      have := List.find?_eq_none.mp h1 x hx
      simpa using this
  · intro dec hints T b hb
    rw [parseBlocks_eq_scanFrom] at hb
    obtain ⟨pre, post, q, i, hq, hseq, hclass, hbeq⟩ :=
      scanFrom_mem_shape dec hints T.length T (le_refl _) 0 0 b hb
    rw [hbeq]
    simp only [mkBlock]
    cases hd : dec (b.original.filter maskKeep) with
    | none => simp
    | some t => simp

/-- A block that failed to decode, for the selection witness. -/
def blockNoDecode : Block :=
  { index := 0, quote := dq, innerStart := 1, innerEnd := 2, original := [],
    cleanedB64 := [], starsAt := [], decodedText := none, likely := false }

/-- Witness for `selectBlock_spec`: a sequence with no decodable block
selects nothing. -/
theorem selectBlock_spec_witness : selectBlock [blockNoDecode] = none :=
  selectBlock_spec.2.1 [blockNoDecode] (by decide)

/-- `Event` of the wave editor (`etype` is the source's `type` field). -/
structure WEvent where
  index : Nat
  etype : List Char
  content : List Char
deriving DecidableEq

/-- `Wave` of the wave editor. -/
structure Wave where
  index : Nat
  content : List Char
  events : List WEvent
deriving DecidableEq

/-- Event classification against the fixed vocabulary, first match wins,
else "Unknown". -/
def classifyEvent (l : List Char) : List Char :=
  if containsSub l ("AddBloon".toList) then "AddBloon".toList
  else if containsSub l ("FollowBezier".toList) then "FollowBezier".toList
  else if containsSub l ("CreateTrain".toList) then "CreateTrain".toList
  else "Unknown".toList

/-- `orphanedLines.map((line, i) => event)` with the running index. -/
def mapWithIndexFrom (f : Nat → List Char → WEvent) :
    Nat → List (List Char) → List WEvent
  | _, [] => []
  | n, l :: rest => f n l :: mapWithIndexFrom f (n + 1) rest

/-- The events of a synthetic wave built from the orphan buffer. -/
def orphanEvents (orphans : List (List Char)) : List WEvent :=
  mapWithIndexFrom
    (fun i l => { index := i, etype := classifyEvent l, content := l }) 0 orphans

/-- The synthetic wave flushed when a wave start arrives after orphan
lines (header text `Wave ${waves.length + 1}`). -/
def orphanWave (wavesLen : Nat) (orphans : List (List Char)) : Wave :=
  { index := wavesLen,
    content := "Wave ".toList ++ Nat.toDigits 10 (wavesLen + 1),
    events := orphanEvents orphans }

/-- `/^Wave\s*\d+/i.test(t)`: case-insensitively `wave`, optional
whitespace, then at least one digit. -/
def waveHeaderTest (t : List Char) : Bool :=
  match t with
  | w :: a :: v :: e :: rest =>
    lowerChar w = 'w' && lowerChar a = 'a' && lowerChar v = 'v' && lowerChar e = 'e' &&
      (match rest.dropWhile isWsChar with
       | d :: _ => isDigitChar d
       | [] => false)
  | _ => false

/-- The wave-start test of `parseWaves`: contains `AddWave` or
`CreateTrain`, or the trimmed line matches `/^Wave\s*\d+/i`, or it is the
very first line (index 0) and contains both `(` and `)`. -/
def isWaveStartLine (l : List Char) (idx : Nat) : Bool :=
  containsSub l ("AddWave".toList) || containsSub l ("CreateTrain".toList) ||
  waveHeaderTest (trim l) ||
  (containsSub l ("(".toList) && containsSub l (")".toList) && idx = 0)

/-- The loop state of `parseWaves`: emitted waves, the open wave, and the
orphan buffer of lines seen before the first wave start. -/
structure WState where
  waves : List Wave
  current : Option Wave
  orphans : List (List Char)
deriving DecidableEq

/-- One `forEach` step of `parseWaves`. -/
def waveStep (st : WState) (idx : Nat) (line : List Char) : WState :=
  if isWaveStartLine line idx then
    let st1 := if st.orphans ≠ [] ∧ st.current = none then
        { st with waves := st.waves ++ [orphanWave st.waves.length st.orphans],
                  orphans := [] }
      else st
    let st2 := match st1.current with
      | some w => { st1 with waves := st1.waves ++ [w] }
      | none => st1
    { st2 with current := some { index := st2.waves.length, content := line, events := [] } }
  else
    match st.current with
    | some w =>
      { st with current := some { w with
          events := w.events ++
            [{ index := w.events.length, etype := classifyEvent line, content := line }] } }
    | none => { st with orphans := st.orphans ++ [line] }

/-- The `forEach` loop with its running index. -/
def waveRun : WState → Nat → List (List Char) → WState
  | st, _, [] => st
  | st, idx, l :: rest => waveRun (waveStep st idx l) (idx + 1) rest

/-- The terminal handling of `parseWaves`: if orphan lines remain with no
wave created at all, emit exactly one synthetic wave labelled `Wave 1`;
then flush the open wave if any. -/
def parseWavesLines (lines : List (List Char)) : List Wave :=
  let st := waveRun { waves := [], current := none, orphans := [] } 0 lines
  let st1 := if st.orphans ≠ [] ∧ st.waves = [] ∧ st.current = none then
      { st with waves := [{ index := 0, content := "Wave 1".toList,
                            events := orphanEvents st.orphans }] }
    else st
  match st1.current with
  | some w => st1.waves ++ [w]
  | none => st1.waves

/-- `parseWaves` from the source: split into lines, keep non-blank lines,
run the two-state machine. -/
def parseWaves (text : List Char) : List Wave :=
  parseWavesLines ((splitLines text).filter (fun l => !(trim l).isEmpty))

theorem waveRun_no_start : ∀ (ls : List (List Char)) (idx : Nat)
    (acc : List (List Char)),
    (∀ p ∈ ls.enumFrom idx, isWaveStartLine p.2 p.1 = false) →
    waveRun { waves := [], current := none, orphans := acc } idx ls
      = { waves := [], current := none, orphans := acc ++ ls } := by
  intro ls
  induction ls with
  | nil => intro idx acc _; simp [waveRun]
  | cons l rest ih =>
    intro idx acc h
    have hl : isWaveStartLine l idx = false := h (idx, l) (by simp [List.enumFrom])
    show waveRun (waveStep _ idx l) (idx + 1) rest = _
    rw [show waveStep { waves := [], current := none, orphans := acc } idx l
        = { waves := [], current := none, orphans := acc ++ [l] } from by
      simp [waveStep, hl]]
    rw [ih (idx + 1) (acc ++ [l]) (fun p hp => h p (by simp [List.enumFrom, hp]))]
    simp

/-- C9: on the example input the wave parser produces exactly two waves —
wave 0 with header `CreateTrain(1)` and one `AddBloon` event, wave 1 with
header `AddWave(2)` and one `AddBloon` event; and an input with no
wave-start line at all yields exactly one synthetic wave labelled
`Wave 1` whose events are every non-blank line in order. -/
theorem parseWaves_spec :
    parseWaves ("CreateTrain(1)".toList ++ Char.ofNat 10 :: "AddBloon(Red)".toList
        ++ Char.ofNat 10 :: "AddWave(2)".toList
        ++ Char.ofNat 10 :: "AddBloon(Blue)".toList)
      = [{ index := 0, content := "CreateTrain(1)".toList,
           events := [{ index := 0, etype := "AddBloon".toList,
                        content := "AddBloon(Red)".toList }] },
         { index := 1, content := "AddWave(2)".toList,
           events := [{ index := 0, etype := "AddBloon".toList,
                        content := "AddBloon(Blue)".toList }] }]
    ∧ (∀ text : List Char,
        ((splitLines text).filter (fun l => !(trim l).isEmpty)) ≠ [] →
        (∀ p ∈ ((splitLines text).filter (fun l => !(trim l).isEmpty)).enum,
          isWaveStartLine p.2 p.1 = false) →
        parseWaves text = [⟨0, "Wave 1".toList,
          orphanEvents ((splitLines text).filter (fun l => !(trim l).isEmpty))⟩]) := by
  constructor
  · decide
  · intro text hne hstart
    have h := waveRun_no_start ((splitLines text).filter (fun l => !(trim l).isEmpty))
      0 [] (by simpa [List.enum] using hstart)
    rw [List.nil_append] at h
    show parseWavesLines _ = _
    unfold parseWavesLines
    rw [h]
    simp [hne]

/-- Witness for `parseWaves_spec` at a concrete orphan-only input. -/
theorem parseWaves_spec_witness :
    parseWaves ("foo".toList ++ Char.ofNat 10 :: "bar".toList)
      = [⟨0, "Wave 1".toList,
          orphanEvents ((splitLines ("foo".toList ++ Char.ofNat 10 :: "bar".toList)).filter
            (fun l => !(trim l).isEmpty))⟩] :=
  parseWaves_spec.2 ("foo".toList ++ Char.ofNat 10 :: "bar".toList) (by decide) (by decide)

end AsSmithy
